import Mathlib

/-!
Verification of the `si_gh_actions` repository-transformation scripts
(`ciify.py`, `boardlessify.py`, `deploy_boardless_versioner.py`).

The scripts drive an external git engine (GitPython / the `git` CLI), the
filesystem and a YAML serializer.  We shallowly embed the repository state
they manipulate:

* a working tree is an association list from paths to file contents;
* the index is an association list from paths to entries carrying a mode
  (regular file vs. submodule gitlink, i.e. git mode `100644` vs `160000`);
* a commit is a message together with the tree snapshot taken from the index;
* a branch maps its name to its ancestry, a list of commits, newest first
  (the scripts only ever create linear histories: committing prepends, and
  creating a branch copies the current ancestry, exactly as a git ref copy
  makes the new branch reach the same commits).

Python string operations (`splitlines`, `strip`, `startswith`, `endswith`)
are modelled over `List Char`.  `splitlines` is modelled with `'\n'` and
`'\r'` each acting as a line break; this differs from Python only on
`"\r\n"` pairs, where Python produces one break and the model two, which
changes neither the set of nonempty lines nor the first line of a string —
the only two observations the scripts make.
-/

namespace SiGh

/-! ## Python-style string primitives over `List Char` -/

/-- A line-break character (`str.splitlines` boundary, restricted to the
`'\n'`/`'\r'` breaks; see the header note). -/
def isBreak (c : Char) : Bool := c == '\n' || c == '\r'

/-- Characters stripped by Python `str.strip()`. -/
def isPyWs (c : Char) : Bool :=
  c == ' ' || c == '\t' || c == '\n' || c == '\r' || c == '\x0b' || c == '\x0c'

/-- Worker for `splitlines`: accumulates the current chunk reversed. -/
def splitAux : List Char → List Char → List (List Char)
  | [], acc => [acc.reverse]
  | c :: rest, acc =>
    if isBreak c then acc.reverse :: splitAux rest []
    else splitAux rest (c :: acc)

/-- All chunks of `l` delimited by line breaks (keeps a trailing empty chunk). -/
def splitBreaks (l : List Char) : List (List Char) := splitAux l []

/-- Python `str.splitlines`: like `splitBreaks` but without the trailing empty
chunk produced by a final line break (and `[]` for the empty string). -/
def pySplitlines (l : List Char) : List (List Char) :=
  if (splitBreaks l).getLast? = some [] then (splitBreaks l).dropLast
  else splitBreaks l

/-- Python `str.strip()` (default whitespace). -/
def pyStrip (l : List Char) : List Char :=
  ((l.dropWhile isPyWs).reverse.dropWhile isPyWs).reverse

/-- Python `str.startswith`. -/
def lStarts : List Char → List Char → Bool
  | [], _ => true
  | _ :: _, [] => false
  | p :: ps, c :: cs => p == c && lStarts ps cs

/-- Python `str.endswith`. -/
def lEnds (suf l : List Char) : Bool := lStarts suf.reverse l.reverse

/-- `String` wrapper for `startswith`. -/
def sStarts (s pre : String) : Bool := lStarts pre.data s.data

/-- `String` wrapper for `endswith`. -/
def sEnds (s suf : String) : Bool := lEnds suf.data s.data

/-- First line of a Python string: `s.splitlines()[0]`, `none` when the list
of lines is empty (where Python raises `IndexError`). -/
def pyFirstLine (s : String) : Option (List Char) :=
  (pySplitlines s.data).head?

/-! ## Association lists (paths to values), the shape of every repository map -/

/-- First value bound to `k`. -/
def alook {α : Type} : List (String × α) → String → Option α
  | [], _ => none
  | (k, v) :: rest, q => if k = q then some v else alook rest q

/-- Bind `k` to `v`: replace the first binding in place, else append. -/
def aset {α : Type} : List (String × α) → String → α → List (String × α)
  | [], q, v => [(q, v)]
  | (k, w) :: rest, q, v =>
    if k = q then (k, v) :: rest else (k, w) :: aset rest q v

/-- Drop every binding of `k`. -/
def adel {α : Type} : List (String × α) → String → List (String × α)
  | [], _ => []
  | (k, v) :: rest, q => if k = q then adel rest q else (k, v) :: adel rest q

theorem alook_aset {α : Type} (l : List (String × α)) (k : String) (v : α)
    (q : String) : alook (aset l k v) q = if k = q then some v else alook l q := by
  induction l with
  | nil => by_cases h : k = q <;> simp [aset, alook, h]
  | cons kv rest ih =>
    obtain ⟨k1, v1⟩ := kv
    by_cases h1 : k1 = k
    · subst h1
      by_cases h2 : k1 = q <;> simp [aset, alook, h2]
    · by_cases h2 : k1 = q
      · subst h2
        simp [aset, alook, h1, Ne.symm h1]
      · simp [aset, alook, h1, h2, ih]

theorem alook_adel {α : Type} (l : List (String × α)) (k q : String) :
    alook (adel l k) q = if k = q then none else alook l q := by
  induction l with
  | nil => by_cases h : k = q <;> simp [adel, alook, h]
  | cons kv rest ih =>
    obtain ⟨k1, v1⟩ := kv
    by_cases h1 : k1 = k
    · subst h1
      by_cases h2 : k1 = q
      · subst h2
        simpa [adel, alook] using ih
      · simp [adel, alook, ih, h2]
    · by_cases h2 : k1 = q
      · subst h2
        simp [adel, alook, h1, Ne.symm h1, ih]
      · simp [adel, alook, h1, h2, ih]

/-- Keys of an association list. -/
def akeys {α : Type} (l : List (String × α)) : List String := l.map Prod.fst

/-! ## `protect_gitmodules` (ciify.py lines 6–16)

```python
def protect_gitmodules():
    if not os.path.exists(".gitignore"):
        return
    with open(".gitignore", "r+", encoding="utf-8") as f:
        content = f.read()
        if "!.gitmodules" not in content.splitlines():
            f.write(("\n" if not content.endswith("\n") else "") + "!.gitmodules\n")
```
The `.gitignore` state is `Option String` (`none` when the file is absent);
writing after `f.read()` appends at the end of the file. -/

/-- The protected line, as characters. -/
def gmLine : List Char := "!.gitmodules".data

/-- Whether `"!.gitmodules"` occurs as a whole line of `content`
(Python `"!.gitmodules" in content.splitlines()`). -/
def hasGmLine (content : String) : Bool :=
  decide (gmLine ∈ pySplitlines content.data)

/-- Python `content.endswith("\n")`. -/
def endsNl (content : String) : Bool := content.data.getLast? = some '\n'

/-- The text appended by `protect_gitmodules` when the line is missing. -/
def gmAppend (content : String) : String :=
  (if endsNl content then "" else "\n") ++ "!.gitmodules\n"

/-- `protect_gitmodules`, as a transformation of the `.gitignore` state. -/
def protect_gitmodules : Option String → Option String
  | none => none
  | some content =>
    if hasGmLine content then some content
    else some (content ++ gmAppend content)

theorem mem_dropLast_of_ne_last {α : Type} {x y : α} :
    ∀ (r : List α), x ∈ r → r.getLast? = some y → x ≠ y → x ∈ r.dropLast
  | [], hx, _, _ => absurd hx (List.not_mem_nil x)
  | [a], hx, hl, hne => by
    simp only [List.mem_singleton] at hx
    have ha : a = y := by simpa using hl
    exact absurd (hx.trans ha) hne
  | a :: b :: r, hx, hl, hne => by
    have hl2 : (b :: r).getLast? = some y := by
      simpa [List.getLast?_cons_cons] using hl
    rcases List.mem_cons.mp hx with h | h
    · subst h
      simp [List.dropLast]
    · have hrec := mem_dropLast_of_ne_last (b :: r) h hl2 hne
      simp [List.dropLast, hrec]

theorem mem_pySplitlines_of_mem {l x : List Char}
    (hx : x ∈ splitBreaks l) (hne : x ≠ []) : x ∈ pySplitlines l := by
  unfold pySplitlines
  split
  case isTrue h => exact mem_dropLast_of_ne_last _ hx h hne
  case isFalse h => exact hx

theorem gmLine_mem_splitAux (l acc : List Char) :
    gmLine ∈ splitAux (l ++ ('\n' :: (gmLine ++ ['\n']))) acc := by
  induction l generalizing acc with
  | nil =>
    have hbase : splitAux (gmLine ++ ['\n']) [] = [gmLine, []] := by decide
    simp only [List.nil_append, splitAux, isBreak, hbase]
    exact List.mem_cons_of_mem _ (List.mem_cons_self _ _)
  | cons c t ih =>
    by_cases h : isBreak c
    · simp only [List.cons_append, splitAux, h, if_true]
      exact List.mem_cons_of_mem _ (ih [])
    · simp only [List.cons_append, splitAux, h, if_false]
      exact ih (c :: acc)

theorem eq_dropLast_append_of_getLast {l : List Char} {a : Char}
    (h : l.getLast? = some a) : l = l.dropLast ++ [a] := by
  cases l with
  | nil => simp at h
  | cons b t =>
    have hne : b :: t ≠ [] := by simp
    have hg : (b :: t).getLast hne = a := by
      rw [List.getLast?_eq_getLast _ hne] at h
      exact Option.some.inj h
    rw [← hg]
    exact (List.dropLast_append_getLast hne).symm

theorem hasGmLine_append (c : String) : hasGmLine (c ++ gmAppend c) = true := by
  have hsuffix : ("!.gitmodules\n" : String).data = gmLine ++ ['\n'] := by decide
  have hmem : gmLine ∈ splitBreaks (c ++ gmAppend c).data := by
    by_cases he : endsNl c
    · have he' : c.data.getLast? = some '\n' := of_decide_eq_true (by
        simpa [endsNl] using he)
      have hdec : c.data = c.data.dropLast ++ ['\n'] := eq_dropLast_append_of_getLast he'
      have hdata : (c ++ gmAppend c).data
          = c.data.dropLast ++ ('\n' :: (gmLine ++ ['\n'])) := by
        unfold gmAppend
        rw [if_pos he, String.data_append, String.data_append, hsuffix,
          show ("" : String).data = [] from rfl]
        conv_lhs => rw [hdec]
        simp
      rw [hdata]
      exact gmLine_mem_splitAux _ []
    · have hdata : (c ++ gmAppend c).data
          = c.data ++ ('\n' :: (gmLine ++ ['\n'])) := by
        unfold gmAppend
        rw [if_neg he, String.data_append, String.data_append, hsuffix,
          show ("\n" : String).data = ['\n'] from rfl]
        simp
      rw [hdata]
      exact gmLine_mem_splitAux _ []
  have hfin : gmLine ∈ pySplitlines (c ++ gmAppend c).data :=
    mem_pySplitlines_of_mem hmem (by decide)
  exact decide_eq_true hfin

theorem protect_ne_of_append (c : String) : c ++ gmAppend c ≠ c := by
  intro h
  have hlen : (c ++ gmAppend c).length = c.length + (gmAppend c).length :=
    String.length_append c (gmAppend c)
  have hpos : 0 < (gmAppend c).length := by
    unfold gmAppend
    by_cases he : endsNl c
    · rw [if_pos he]; decide
    · rw [if_neg he]; decide
  rw [h] at hlen
  omega

/-- C9: `protect_gitmodules` is idempotent and total over the `.gitignore`
state: with no `.gitignore` it changes nothing; with one present it returns
the content unchanged exactly when the line `!.gitmodules` is already present
as a whole line, and otherwise appends that line (preceded by a newline when
the file does not end in one), so repeated invocations add the line at most
once. -/
theorem claim_C9_protect_gitmodules :
    protect_gitmodules none = none ∧
    (∀ g, protect_gitmodules (protect_gitmodules g) = protect_gitmodules g) ∧
    (∀ c, protect_gitmodules (some c) = some c ↔ hasGmLine c = true) ∧
    (∀ c, protect_gitmodules (some c)
      = some (if hasGmLine c then c else c ++ gmAppend c)) := by
  have hstep : ∀ c, protect_gitmodules (some c)
      = some (if hasGmLine c then c else c ++ gmAppend c) := by
    intro c
    by_cases h : hasGmLine c <;> simp [protect_gitmodules, h]
  refine ⟨rfl, ?_, ?_, hstep⟩
  · intro g
    match g with
    | none => rfl
    | some c =>
      by_cases h : hasGmLine c
      · simp [protect_gitmodules, h]
      · rw [hstep c, if_neg h, hstep (c ++ gmAppend c), hasGmLine_append c, if_pos rfl]
  · intro c
    constructor
    · intro h
      by_cases hg : hasGmLine c
      · exact hg
      · rw [hstep c, if_neg hg] at h
        exact absurd (Option.some.inj h) (protect_ne_of_append c)
    · intro h
      simp [protect_gitmodules, h]

/-! ## Manifest (`.slcp`) documents

The scripts parse the manifest with `yaml.safe_load` into a mapping and write
it back with `yaml.safe_dump`.  We model the part of the YAML data model the
scripts touch: a document is a mapping from keys to values; a value is a
scalar or a list of items; an item is a mapping of string fields or a
non-mapping scalar.  The serializer (an external collaborator) is modelled by
an explicit `dumpYDoc`/`parseYDoc` pair over a concrete line format. -/

inductive YItem where
  | mapping (fields : List (String × String))
  | plain (s : String)
deriving DecidableEq, Repr

inductive YVal where
  | scalar (s : String)
  | items (l : List YItem)
deriving DecidableEq, Repr

/-- A manifest document: top-level mapping in key order. -/
abbrev YDoc := List (String × YVal)

/-- The removal predicate of `boardlessify.cleanup_yaml_and_files`
(lines 109–113): the item is a dictionary with an `id` key whose value
starts with `"brd"` or `"EFR32"`. -/
def componentRemoves : YItem → Bool
  | .mapping fields =>
    match alook fields "id" with
    | some v => sStarts v "brd" || sStarts v "EFR32"
    | none => false
  | .plain _ => false

/-- The `updated_component_list` loop of `boardlessify.cleanup_yaml_and_files`
(lines 106–115): keep every item except those matched by `componentRemoves`. -/
def updatedComponentList : List YItem → List YItem
  | [] => []
  | item :: rest =>
    if componentRemoves item then updatedComponentList rest
    else item :: updatedComponentList rest

/-- Steps 6b/6c of `boardlessify.cleanup_yaml_and_files` (lines 105–118): if
the document has a `component` key holding a list, replace it by the filtered
list; otherwise leave the document alone. -/
def cleanupComponent (d : YDoc) : YDoc :=
  match alook d "component" with
  | some (.items l) => aset d "component" (.items (updatedComponentList l))
  | _ => d

/-- The top-level-key filter of `deploy_boardless_versioner.cleanup_yaml_and_files`
(lines 95–99): drop the mapping entries whose KEY starts with `"brd"` or
`"efr32"` (note the lower case, unlike the boardlessify variant). -/
def deployCleanDoc (d : YDoc) : YDoc :=
  d.filter fun kv => !(sStarts kv.1 "brd" || sStarts kv.1 "efr32")

/-! ### A concrete serializer model (`yaml.safe_dump` / `yaml.safe_load`) -/

/-- Split a character list at every occurrence of `sep`. -/
def splitChAux (sep : Char) : List Char → List Char → List (List Char)
  | [], acc => [acc.reverse]
  | c :: rest, acc =>
    if c = sep then acc.reverse :: splitChAux sep rest []
    else splitChAux sep rest (c :: acc)

/-- All chunks of `l` delimited by `sep`. -/
def splitOnChar (sep : Char) (l : List Char) : List (List Char) := splitChAux sep l []

/-- Split at the first occurrence of `sep`; `none` if absent. -/
def splitFirst (sep : Char) : List Char → Option (List Char × List Char)
  | [] => none
  | c :: rest =>
    if c = sep then some ([], rest)
    else
      match splitFirst sep rest with
      | some ab => some (c :: ab.1, ab.2)
      | none => none

def dumpField (f : String × String) : String := " " ++ f.1 ++ "=" ++ f.2

def dumpItem : YItem → String
  | .mapping fields => "m" ++ String.join (fields.map dumpField) ++ "\n"
  | .plain s => "p " ++ s ++ "\n"

def dumpVal (k : String) : YVal → String
  | .scalar s => "s " ++ k ++ ":" ++ s ++ "\n"
  | .items l => "l " ++ k ++ "\n" ++ String.join (l.map dumpItem)

/-- Serialize a document (the model of `yaml.safe_dump`). -/
def dumpYDoc (d : YDoc) : String :=
  String.join (d.map fun kv => dumpVal kv.1 kv.2)

def parseField (l : List Char) : Option (String × String) :=
  (splitFirst '=' l).map fun ab => (String.mk ab.1, String.mk ab.2)

def parseFields (rest : List Char) : Option (List (String × String)) :=
  ((splitOnChar ' ' rest).filter (· ≠ [])).mapM parseField

/-- One line of the serialized form, folded into the document built so far
(entries in reverse order; item lines extend the most recent list entry). -/
def parseStep (acc : Option (List (String × YVal))) (line : List Char) :
    Option (List (String × YVal)) :=
  match acc with
  | none => none
  | some doc =>
    match line with
    | 's' :: ' ' :: body =>
      match splitFirst ':' body with
      | some kv => some ((String.mk kv.1, .scalar (String.mk kv.2)) :: doc)
      | none => none
    | 'l' :: ' ' :: key => some ((String.mk key, .items []) :: doc)
    | 'm' :: rest =>
      match doc with
      | (k, .items l) :: doctl =>
        match parseFields rest with
        | some fs => some ((k, .items (l ++ [.mapping fs])) :: doctl)
        | none => none
      | _ => none
    | 'p' :: ' ' :: rest =>
      match doc with
      | (k, .items l) :: doctl =>
        some ((k, .items (l ++ [.plain (String.mk rest)])) :: doctl)
      | _ => none
    | _ => none

/-- Parse a serialized document (the model of `yaml.safe_load`); `none` models
a YAML parse exception. -/
def parseYDoc (content : String) : Option YDoc :=
  match (pySplitlines content.data).foldl parseStep (some []) with
  | some doc => some doc.reverse
  | none => none

/-! ## Working tree, error kinds, and `cleanup_yaml_and_files` -/

/-- A working tree: paths bound to file contents. -/
abbrev WorkTree := List (String × String)

/-- The failure kinds of the pipelines: an uncaught `GitCommandError`, an
uncaught `OSError` (GitPython raises it for a ref that already exists), the
gitlink assertion `RuntimeError`, and a YAML parse exception. -/
inductive Err where
  | gitCommand
  | osError
  | submoduleIntegrity
  | manifestParse
deriving DecidableEq, Repr

/-- First file in tree-walk order whose path ends with `ext`
(the `os.walk` search loops of `cleanup_yaml_and_files`). -/
def findByExt (w : WorkTree) (ext : String) : Option (String × String) :=
  w.find? fun pc => sEnds pc.1 ext

/-- `boardlessify.cleanup_yaml_and_files` (lines 83–140) over the working
tree: rewrite the first `.slcp` file with the filtered document (a parse
failure is the uncaught YAML exception), then delete the first `.pintool`
file.  Missing files are not errors. -/
def cleanup_yaml_and_files (w : WorkTree) : WorkTree × Option Err :=
  match findByExt w ".slcp" with
  | none =>
    match findByExt w ".pintool" with
    | none => (w, none)
    | some qc => (adel w qc.1, none)
  | some pc =>
    match parseYDoc pc.2 with
    | none => (w, some .manifestParse)
    | some d =>
      let w1 := aset w pc.1 (dumpYDoc (cleanupComponent d))
      match findByExt w1 ".pintool" with
      | none => (w1, none)
      | some qc => (adel w1 qc.1, none)

/-! ## C6 / C7 / C8: manifest filtering -/

theorem updatedComponentList_eq_filter (l : List YItem) :
    updatedComponentList l = l.filter fun it => !componentRemoves it := by
  induction l with
  | nil => rfl
  | cons it rest ih =>
    by_cases h : componentRemoves it <;>
      simp [updatedComponentList, h, List.filter_cons, ih]

theorem updatedComponentList_sublist (l : List YItem) :
    (updatedComponentList l).Sublist l := by
  rw [updatedComponentList_eq_filter]
  exact List.filter_sublist l

/-- Sample component list from the claim: identifiers `brd4001`, `EFR32MG12`,
`uart`. -/
def sampleComponents : List YItem :=
  [.mapping [("id", "brd4001")], .mapping [("id", "EFR32MG12")],
   .mapping [("id", "uart")]]

/-- The same three identifiers as top-level mapping keys, the shape consumed
by the deploy variant's filter. -/
def sampleDeployDoc : YDoc :=
  [("brd4001", .scalar "a"), ("EFR32MG12", .scalar "b"), ("uart", .scalar "c")]

/-- C6 counterexample: the deploy variant's cleanup, applied to a manifest
with entries `brd4001`, `EFR32MG12`, `uart`, does NOT leave only `uart`: its
case-sensitive `efr32` prefix test keeps `EFR32MG12`. -/
theorem claim_C6_counterexample :
    deployCleanDoc sampleDeployDoc
      = [("EFR32MG12", YVal.scalar "b"), ("uart", YVal.scalar "c")] ∧
    ¬ deployCleanDoc sampleDeployDoc = [("uart", YVal.scalar "c")] := by decide

/-- C6 (amended): the boardlessify component filter removes exactly the
`brd4001` and `EFR32MG12` entries, leaving only `uart`, and the filter is
idempotent; the deploy variant's top-level-key filter instead keeps
`EFR32MG12` (it only tests the lower-case prefixes `brd`/`efr32`). -/
theorem claim_C6_manifest_filter :
    updatedComponentList sampleComponents = [YItem.mapping [("id", "uart")]] ∧
    (∀ l, updatedComponentList (updatedComponentList l) = updatedComponentList l) ∧
    deployCleanDoc sampleDeployDoc
      = [("EFR32MG12", YVal.scalar "b"), ("uart", YVal.scalar "c")] := by
  refine ⟨by decide, ?_, by decide⟩
  intro l
  induction l with
  | nil => rfl
  | cons it rest ih =>
    by_cases h : componentRemoves it
    · simp [updatedComponentList, h, ih]
    · simp [updatedComponentList, h, ih]

/-- C8: only dictionary items with an `id` field starting with `brd` or
`EFR32` are removed by the component filter; every other item — non-mapping
items and mappings without `id` included — is kept unchanged. -/
theorem claim_C8_component_filter (l : List YItem) (it : YItem) :
    (it ∈ l → componentRemoves it = false → it ∈ updatedComponentList l) ∧
    (it ∈ updatedComponentList l → it ∈ l ∧ componentRemoves it = false) ∧
    (componentRemoves it = true ↔ ∃ fs v, it = YItem.mapping fs ∧
      alook fs "id" = some v ∧
      (sStarts v "brd" = true ∨ sStarts v "EFR32" = true)) := by
  refine ⟨?_, ?_, ?_⟩
  · intro hmem hkeep
    rw [updatedComponentList_eq_filter]
    exact List.mem_filter.mpr ⟨hmem, by simp [hkeep]⟩
  · intro hmem
    rw [updatedComponentList_eq_filter] at hmem
    have h := List.mem_filter.mp hmem
    exact ⟨h.1, by simpa using h.2⟩
  · cases it with
    | mapping fields =>
      constructor
      · intro h
        cases hl : alook fields "id" with
        | none => rw [componentRemoves, hl] at h; cases h
        | some v =>
          rw [componentRemoves, hl] at h
          exact ⟨fields, v, rfl, hl, by simpa [Bool.or_eq_true] using h⟩
      · rintro ⟨fs, v, heq, hlook, hor⟩
        have hfs : fields = fs := by injection heq
        subst hfs
        rw [componentRemoves, hlook]
        rcases hor with h | h <;> simp [h]
    | plain s =>
      constructor
      · intro h; cases h
      · rintro ⟨fs, v, heq, _, _⟩; cases heq

theorem lStarts_head_eq {a b : Char} {as bs l : List Char}
    (ha : lStarts (a :: as) l = true) (hb : lStarts (b :: bs) l = true) :
    a = b := by
  cases l with
  | nil => simp [lStarts] at ha
  | cons c cs =>
    simp only [lStarts, Bool.and_eq_true, beq_iff_eq] at ha hb
    exact ha.1.trans hb.1.symm

theorem not_slcp_and_pintool (p : String) :
    sEnds p ".slcp" = true → sEnds p ".pintool" = true → False := by
  intro h1 h2
  unfold sEnds lEnds at h1 h2
  rw [show (".slcp" : String).data.reverse = 'p' :: "cls.".data from by decide] at h1
  rw [show (".pintool" : String).data.reverse = 'l' :: "ootnip.".data from by decide] at h2
  exact absurd (lStarts_head_eq h1 h2) (by decide)

/-- C7: the manifest cleanup writes the filtered document back to the same
file path (untouched by the later `.pintool` deletion, which can never pick
the `.slcp` path), succeeds, leaves every top-level key other than
`component` bound to its old value, replaces `component` in place by the
order-preserving sublist of surviving items, and preserves the document's
key order. -/
theorem akeys_aset_of_mem {α : Type} {l : List (String × α)} {k : String}
    {w : α} (h : alook l k = some w) (v : α) :
    akeys (aset l k v) = akeys l := by
  induction l with
  | nil => cases h
  | cons kv rest ih =>
    obtain ⟨k1, v1⟩ := kv
    by_cases h1 : k1 = k
    · rw [aset, if_pos h1]
      rfl
    · rw [alook, if_neg h1] at h
      rw [aset, if_neg h1]
      show k1 :: akeys (aset rest k v) = k1 :: akeys rest
      rw [ih h]

theorem claim_C7_cleanup_frame (w : WorkTree) (p content : String) (d : YDoc)
    (hfind : findByExt w ".slcp" = some (p, content))
    (hparse : parseYDoc content = some d) :
    alook (cleanup_yaml_and_files w).1 p = some (dumpYDoc (cleanupComponent d)) ∧
    (cleanup_yaml_and_files w).2 = none ∧
    (∀ k, k ≠ "component" → alook (cleanupComponent d) k = alook d k) ∧
    (∀ l, alook d "component" = some (YVal.items l) →
      alook (cleanupComponent d) "component"
          = some (YVal.items (updatedComponentList l)) ∧
      (updatedComponentList l).Sublist l ∧
      akeys (cleanupComponent d) = akeys d) := by
  have hslcp : sEnds p ".slcp" = true := by
    have := List.find?_some hfind
    simpa using this
  refine ⟨?_, ?_, ?_, ?_⟩
  · simp only [cleanup_yaml_and_files, hfind, hparse]
    cases hq : findByExt (aset w p (dumpYDoc (cleanupComponent d))) ".pintool" with
    | none => simp [hq, alook_aset]
    | some qc =>
      have hqext : sEnds qc.1 ".pintool" = true := by
        have := List.find?_some hq
        simpa using this
      have hne : qc.1 ≠ p := by
        intro h
        exact not_slcp_and_pintool p hslcp (h ▸ hqext)
      simp only [hq]
      rw [alook_adel, if_neg hne, alook_aset, if_pos rfl]
  · simp only [cleanup_yaml_and_files, hfind, hparse]
    cases hq : findByExt (aset w p (dumpYDoc (cleanupComponent d))) ".pintool" with
    | none => simp [hq]
    | some qc => simp [hq]
  · intro k hk
    rw [cleanupComponent]
    cases hc : alook d "component" with
    | none => rfl
    | some v =>
      cases v with
      | scalar s => rfl
      | items l => rw [alook_aset, if_neg (by exact fun h => hk h.symm)]
  · intro l hl
    rw [cleanupComponent, hl]
    exact ⟨by rw [alook_aset, if_pos rfl], updatedComponentList_sublist l,
      akeys_aset_of_mem hl _⟩

/-- Concrete manifest document used to instantiate C7. -/
def witnessDoc : YDoc :=
  [("name", .scalar "app"),
   ("component", .items [.mapping [("id", "brd4001")], .mapping [("id", "uart")]])]

/-- Concrete working tree holding the serialized `witnessDoc` and a pintool
file. -/
def witnessTree : WorkTree :=
  [("app.slcp", dumpYDoc witnessDoc), ("board.pintool", "pins")]

/-- C7 witness: the frame theorem applied to `witnessTree`. -/
theorem claim_C7_witness :
    alook (cleanup_yaml_and_files witnessTree).1 "app.slcp"
      = some (dumpYDoc (cleanupComponent witnessDoc)) :=
  (claim_C7_cleanup_frame witnessTree "app.slcp" (dumpYDoc witnessDoc) witnessDoc
    (by decide) (by decide)).1

/-- C8 witness: the filter theorem applied to a concrete list: the
non-mapping item `plain "x"` survives filtering next to a removed `brd`
mapping. -/
theorem claim_C8_witness :
    YItem.plain "x" ∈ updatedComponentList
      [YItem.mapping [("id", "brd4001")], YItem.plain "x"] :=
  (claim_C8_component_filter
      [YItem.mapping [("id", "brd4001")], YItem.plain "x"] (YItem.plain "x")).1
    (by decide) (by decide)

/-! ## Repository state

The git engine is external; we embed exactly the operations the scripts
invoke.  Branch histories are linear (the scripts never merge): each branch
name maps to its full ancestry, newest commit first.  Creating a branch
copies the current ancestry (a ref copy reaches the same commits);
committing prepends.  The index maps paths to entries with a mode
(`100644` regular vs `160000` gitlink). -/

inductive FMode where
  | regular
  | gitlink
deriving DecidableEq, Repr

structure IEntry where
  mode : FMode
  content : String
deriving DecidableEq, Repr

abbrev Tree := List (String × IEntry)

structure Commit where
  message : String
  tree : Tree
deriving DecidableEq, Repr

abbrev History := List Commit

structure St where
  branches : List (String × History)
  active : String
  index : Tree
  work : WorkTree
  ignored : List String
deriving DecidableEq, Repr

/-- A state paired with a possibly-raised exception. -/
abbrev StX := St × Option Err

/-- Error-propagating sequencing: a raised exception aborts the rest of a
`main` with the state reached so far. -/
def andThen (x : StX) (f : St → StX) : StX :=
  match x with
  | (s, some e) => (s, some e)
  | (s, none) => f s

theorem andThen_err (s : St) (e : Err) (f : St → StX) :
    andThen (s, some e) f = (s, some e) := rfl

theorem andThen_ok (s : St) (f : St → StX) : andThen (s, none) f = f s := rfl

def activeHist (s : St) : History := (alook s.branches s.active).getD []

def headTree (h : History) : Tree :=
  match h.head? with
  | some c => c.tree
  | none => []

def activeTipTree (s : St) : Tree := headTree (activeHist s)

/-- `branch_exists` (ciify.py lines 18–19). -/
def branch_exists (s : St) (name : String) : Bool := (alook s.branches name).isSome

/-! ### The commit-subject probe (ciify.py lines 29–38) -/

/-- One commit of the `iter_commits` loop:
`c.message.splitlines()[0].strip() == subject`; `none` models the
`IndexError` on an empty message (no lines). -/
def subjectHit (subject : String) (c : Commit) : Option Bool :=
  match pyFirstLine c.message with
  | none => none
  | some l => some (pyStrip l = subject.data)

/-- The traversal inside `has_commit_with_subject`: stop with True on a
match; an `IndexError` is swallowed by the enclosing `except` as False. -/
def iterSubject (subject : String) : History → Bool
  | [] => false
  | c :: rest =>
    match pyFirstLine c.message with
    | none => false
    | some l => if pyStrip l = subject.data then true else iterSubject subject rest

/-- `has_commit_with_subject` (ciify.py lines 29–38): a missing rev raises
inside the `try` and yields False. -/
def has_commit_with_subject (s : St) (rev subject : String) : Bool :=
  match alook s.branches rev with
  | none => false
  | some h => iterSubject subject h

/-- Whether a message's stripped first line equals `subject`. -/
def msgMatch (subject message : String) : Bool :=
  match pyFirstLine message with
  | none => false
  | some l => pyStrip l = subject.data

/-- Whether a commit's stripped first message line equals `subject` (used to
count subject occurrences along a branch). -/
def subjMatch (subject : String) (c : Commit) : Bool :=
  msgMatch subject c.message

/-- Number of commits with stripped first line `subject` on branch `b`. -/
def countSubj (s : St) (b subject : String) : Nat :=
  ((alook s.branches b).getD []).countP (subjMatch subject)

/-! ### Checkout, branch creation, rename -/

/-- Content of a regular-file entry at `p` (gitlink entries pin a submodule
commit, not file content). -/
def regContent (t : Tree) (p : String) : Option String :=
  match alook t p with
  | some e => if e.mode = FMode.regular then some e.content else none
  | none => none

/-- Keys in first-occurrence order. -/
def dedupKeys (l : List String) : List String :=
  l.foldl (fun acc k => if k ∈ acc then acc else acc ++ [k]) []

/-- Candidate paths a checkout must consider. -/
def coPaths (cur tgt : Tree) (w : WorkTree) : List String :=
  dedupKeys (akeys w ++ akeys cur ++ akeys tgt)

/-- `git checkout` refuses when a path whose version differs between the two
tips carries local modifications (including an untracked file where the
target tree has one). -/
def checkoutConflict (cur tgt : Tree) (w : WorkTree) : Bool :=
  (coPaths cur tgt w).any fun p =>
    regContent cur p != regContent tgt p && alook w p != regContent cur p

/-- The working tree after a successful checkout: paths identical in both
tips keep their working copy (local changes and untracked files carried),
every other path takes the target version (or disappears). -/
def checkoutWork (cur tgt : Tree) (w : WorkTree) : WorkTree :=
  (coPaths cur tgt w).filterMap fun p =>
    (if regContent cur p = regContent tgt p then alook w p
     else regContent tgt p).map fun c => (p, c)

/-- `repo.git.checkout name`: switch branch, reset the index to the target
tip, update the working tree; an uncaught `GitCommandError` on conflict or
missing branch. -/
def gitCheckout (s : St) (name : String) : StX :=
  match alook s.branches name with
  | none => (s, some .gitCommand)
  | some h =>
    let cur := activeTipTree s
    let tgt := headTree h
    if checkoutConflict cur tgt s.work then (s, some .gitCommand)
    else
      let w2 := checkoutWork cur tgt s.work
      ({ s with active := name, index := tgt, work := w2 }, none)

/-- `repo.git.branch("-M", "main")` (ciify.py line 153): rename the current
branch to `main` (only invoked when no `main` exists). -/
def renameActiveToMain (s : St) : St :=
  let br := s.branches.map fun bh =>
    (if bh.1 = s.active then "main" else bh.1, bh.2)
  { s with branches := br, active := "main" }

/-- GitPython `repo.create_head(name)`: writes the ref at the current HEAD
commit.  If the ref already exists pointing at the same commit the write is
a silent no-op; if it points elsewhere GitPython raises `OSError` (not
`GitCommandError`). -/
def create_head (s : St) (name : String) : StX :=
  match alook s.branches name with
  | some h =>
    if h.head? = (activeHist s).head? then (s, none) else (s, some .osError)
  | none => ({ s with branches := aset s.branches name (activeHist s) }, none)

/-- `ensure_checked_out` (ciify.py lines 21–27). -/
def ensure_checked_out (s : St) (name : String) : StX :=
  if branch_exists s name then gitCheckout s name
  else andThen (create_head s name) fun s1 => gitCheckout s1 name

/-! ### Index operations and staging -/

/-- `repo.index.add([path])` for a plain file path (every call site guards on
existence, so the missing-path case is never exercised). -/
def indexAddPath (s : St) (p : String) : St :=
  match alook s.work p with
  | some c => { s with index := aset s.index p ⟨FMode.regular, c⟩ }
  | none => s

def isFileW (w : WorkTree) (p : String) : Bool := (alook w p).isSome

def isDirW (w : WorkTree) (p : String) : Bool :=
  w.any fun qc => sStarts qc.1 (p ++ "/")

def filesUnder (w : WorkTree) (dir : String) : List (String × String) :=
  w.filter fun qc => sStarts qc.1 (dir ++ "/")

/-- Paths git never tracks under the submodule: the `.git` marker itself and
anything inside a nested `.git` directory. -/
def isGitMeta (p : String) : Bool :=
  p == "si_gh_actions/.git" || sStarts p "si_gh_actions/.git/"

/-- `repo.git.add("si_gh_actions")` (ciify.py line 61).  With a `.git` file
in the submodule working directory git stages a gitlink (mode `160000`)
pinning the submodule state; with a plain directory (the nested `.git`
directory having been removed by `preclean_submodule_git`) it stages the
ordinary files inside — the corruption `assert_gitlink` exists to catch —
replacing any stale gitlink; with nothing there it stages the deletion of
whatever the index holds at the path, and errors if the pathspec matches
nothing at all. -/
def gitAddSubmodulePath (s : St) : StX :=
  match alook s.work "si_gh_actions/.git" with
  | some gitfile =>
    ({ s with index := aset s.index "si_gh_actions" ⟨FMode.gitlink, gitfile⟩ }, none)
  | none =>
    let inner := (filesUnder s.work "si_gh_actions").filter fun qc => !isGitMeta qc.1
    if inner.isEmpty then
      let tracked := s.index.filter fun qe =>
        qe.1 == "si_gh_actions" || sStarts qe.1 "si_gh_actions/"
      if tracked.isEmpty then (s, some .gitCommand)
      else
        let idx := s.index.filter fun qe =>
          !(qe.1 == "si_gh_actions" || sStarts qe.1 "si_gh_actions/")
        ({ s with index := idx }, none)
    else
      let idx := inner.foldl (fun t qc => aset t qc.1 ⟨FMode.regular, qc.2⟩)
        (adel s.index "si_gh_actions")
      ({ s with index := idx }, none)

/-- `assert_gitlink` (ciify.py lines 74–84): `git ls-files --stage` at the
path starts with `160000` exactly when the index entry there is a gitlink;
empty output (`mode = ''`) or a regular mode raises `RuntimeError`. -/
def assert_gitlink (s : St) : Option Err :=
  match alook s.index "si_gh_actions" with
  | some e => if e.mode = FMode.gitlink then none else some .submoduleIntegrity
  | none => some .submoduleIntegrity

def treeSub (t1 t2 : Tree) : Bool := t1.all fun pe => alook t2 pe.1 == some pe.2

/-- Extensional tree equality, the emptiness test of `git diff --cached`. -/
def treeEqB (t1 t2 : Tree) : Bool := treeSub t1 t2 && treeSub t2 t1

/-- `has_staged_changes` (ciify.py lines 93–98): `git diff --cached --quiet`
against the tip of the checked-out branch; on an unborn branch the HEAD
revision is invalid, the command fails, and the function returns True. -/
def has_staged_changes (s : St) : Bool :=
  match (alook s.branches s.active).bind List.head? with
  | none => true
  | some c => !treeEqB s.index c.tree

/-- `repo.index.commit(message)`: snapshot the index as a new commit
advancing the active branch. -/
def indexCommit (s : St) (message : String) : St :=
  let h2 := Commit.mk message s.index :: (alook s.branches s.active).getD []
  { s with branches := aset s.branches s.active h2 }

/-- `commit_if_staged` (ciify.py lines 100–105); the Bool records whether a
commit was made (`false` = "No staged changes; skipping commit."). -/
def commit_if_staged (s : St) (message : String) : St × Bool :=
  if has_staged_changes s then (indexCommit s message, true) else (s, false)

/-- `repo.is_dirty(index=True, working_tree=True, untracked_files=True)`:
staged changes, or a tracked regular file whose working copy differs or is
gone, or an untracked non-ignored file. -/
def is_dirty (s : St) : Bool :=
  has_staged_changes s
  || s.index.any (fun pe =>
      pe.2.mode == FMode.regular && alook s.work pe.1 != some pe.2.content)
  || s.work.any (fun pc =>
      (alook s.index pc.1).isNone && !(s.ignored.contains pc.1))

/-- `commit_if_needed` (ciify.py lines 86–91). -/
def commit_if_needed (s : St) (message : String) : St × Bool :=
  if is_dirty s then (indexCommit s message, true) else (s, false)

/-- `preclean_submodule_git` (ciify.py lines 40–47): remove a nested
`si_gh_actions/.git` DIRECTORY (present when files live under it; a proper
submodule has a `.git` file at that exact path instead, which is kept). -/
def preclean_submodule_git (w : WorkTree) : WorkTree :=
  if w.any (fun pc => sStarts pc.1 "si_gh_actions/.git/") then
    w.filter fun pc => !sStarts pc.1 "si_gh_actions/.git/"
  else w

/-! ### `copy_files_to_root` -/

/-- Source/destination pairs of ciify's `copy_files_to_root`
(lines 111–116). -/
def ciifyCopySources : List (String × String) :=
  [("si_gh_actions/CHANGELOG.md", "CHANGELOG.md"),
   ("si_gh_actions/VERSION.md", "VERSION.md"),
   ("si_gh_actions/.gitignore", ".gitignore"),
   ("si_gh_actions/target_info.yaml", "target_info.yaml")]

/-- `shutil.copy(src, ".")`: overwrite the root file when the source exists,
skip otherwise. -/
def copyOne (w : WorkTree) (sd : String × String) : WorkTree :=
  match alook w sd.1 with
  | some c => aset w sd.2 c
  | none => w

def dropPrefixStr (pre p : String) : String :=
  String.mk (p.data.drop pre.data.length)

/-- `shutil.copytree("si_gh_actions/.github/", "./.github", dirs_exist_ok)`:
merge every file of the source tree into `.github/`. -/
def copyGithubTree (w : WorkTree) : WorkTree :=
  (filesUnder w "si_gh_actions/.github").foldl
    (fun acc qc =>
      aset acc (".github/" ++ dropPrefixStr "si_gh_actions/.github/" qc.1) qc.2)
    w

/-- `copy_files_to_root` (ciify.py lines 107–140). -/
def copy_files_to_root (w : WorkTree) : WorkTree :=
  copyGithubTree (ciifyCopySources.foldl copyOne w)

/-! ### `stage_submodule_and_ci` (ciify.py lines 49–72) -/

/-- Line 57–58: keep `.gitmodules` in the index when the file exists. -/
def stageGitmodules (s : St) : St :=
  if isFileW s.work ".gitmodules" then indexAddPath s ".gitmodules" else s

/-- Lines 64–65: force-stage `.gitignore` when it exists (`git add -f`
bypasses ignore rules; explicit adds in this model never consult them). -/
def stageGitignore (s : St) : St :=
  if isFileW s.work ".gitignore" then indexAddPath s ".gitignore" else s

/-- Lines 68–70: stage whichever of the three copied CI files exist. -/
def stageCiFiles (s : St) : St :=
  (["CHANGELOG.md", "VERSION.md", "target_info.yaml"].filter
    (fun p => isFileW s.work p)).foldl indexAddPath s

/-- Lines 71–72: `git add .github` when the directory exists. -/
def stageGithubDir (s : St) : St :=
  if isDirW s.work ".github" then
    let idx := (filesUnder s.work ".github").foldl
      (fun t qc => aset t qc.1 ⟨FMode.regular, qc.2⟩) s.index
    { s with index := idx }
  else s

def stage_submodule_and_ci (s : St) : StX :=
  andThen (gitAddSubmodulePath (stageGitmodules s)) fun s2 =>
  (stageGithubDir (stageCiFiles (stageGitignore s2)), none)

/-! ### `ciify.main` (lines 144–192) -/

def bfSubject : String := "Initial Boardful commit"

def ciSubject : String := "CI: add workflows and metadata"

def blSubject : String := "Initial Boardless commit"

/-- ciify.main lines 147–153: check out `main` if it exists, else rename the
current branch to `main`. -/
def getOntoMain (s : St) : StX :=
  if branch_exists s "main" then gitCheckout s "main"
  else (renameActiveToMain s, none)

/-- ciify.main lines 155–162: `protect_gitmodules`, `preclean_submodule_git`;
the submodule sync/update subprocesses touch only the (external) submodule
clone and at worst print a warning, leaving the modelled state unchanged. -/
def ciifyHygiene (s : St) : St :=
  let w1 :=
    match protect_gitmodules (alook s.work ".gitignore") with
    | some c => aset s.work ".gitignore" c
    | none => s.work
  { s with work := preclean_submodule_git w1 }

/-- ciify.main lines 164–170: the Boardful step (guard, stage, assert
gitlink, commit if staged). -/
def boardfulStep (s : St) : StX :=
  if has_commit_with_subject s "main" bfSubject then (s, none)
  else
    andThen (stage_submodule_and_ci s) fun s1 =>
    match assert_gitlink s1 with
    | some e => (s1, some e)
    | none => ((commit_if_staged s1 bfSubject).1, none)

/-- ciify.main line 173. -/
def ensureDevStep (s : St) : StX := ensure_checked_out s "dev"

/-- ciify.main lines 178–183: the CI step (guard, copy files, stage, commit;
note: no gitlink assertion in this step). -/
def ciStep (s : St) : StX :=
  if has_commit_with_subject s "dev" ciSubject then (s, none)
  else
    andThen (stage_submodule_and_ci { s with work := copy_files_to_root s.work })
      fun s1 => ((commit_if_staged s1 ciSubject).1, none)

/-- ciify.main lines 186–192: the Boardless step (guard, stage, assert
gitlink, commit if staged). -/
def boardlessStep (s : St) : StX :=
  if has_commit_with_subject s "dev" blSubject then (s, none)
  else
    andThen (stage_submodule_and_ci s) fun s1 =>
    match assert_gitlink s1 with
    | some e => (s1, some e)
    | none => ((commit_if_staged s1 blSubject).1, none)

/-- `ciify.main` (lines 144–192), with uncaught exceptions aborting the
remaining steps. -/
def ciifyMain (s : St) : StX :=
  andThen (getOntoMain s) fun s1 =>
  andThen (boardfulStep (ciifyHygiene s1)) fun s3 =>
  andThen (ensureDevStep s3) fun s4 =>
  andThen (ciStep s4) fun s5 =>
  boardlessStep s5

/-! ## C1: subject bookkeeping

The pipeline's re-entrancy protection is `has_commit_with_subject`; the key
invariant is that each pipeline subject occurs at most once per branch. -/

/-- The three pipeline commit subjects and their target branches' guards. -/
def pipelineSubjects : List String := [bfSubject, ciSubject, blSubject]

theorem alook_mem {α : Type} {l : List (String × α)} {k : String} {v : α}
    (h : alook l k = some v) : (k, v) ∈ l := by
  induction l with
  | nil => cases h
  | cons kv rest ih =>
    obtain ⟨k1, v1⟩ := kv
    by_cases h1 : k1 = k
    · subst h1
      rw [alook, if_pos rfl] at h
      exact (Option.some.inj h) ▸ List.mem_cons_self _ _
    · rw [alook, if_neg h1] at h
      exact List.mem_cons_of_mem _ (ih h)

theorem splitAux_ne_nil (l acc : List Char) : splitAux l acc ≠ [] := by
  induction l generalizing acc with
  | nil => simp [splitAux]
  | cons c t ih =>
    by_cases h : isBreak c <;> simp [splitAux, h, ih]

theorem splitAux_head (l acc : List Char) :
    (splitAux l acc).head?
      = some (acc.reverse ++ l.takeWhile fun c => !isBreak c) := by
  induction l generalizing acc with
  | nil => simp [splitAux]
  | cons c t ih =>
    by_cases h : isBreak c
    · simp [splitAux, h, List.takeWhile_cons]
    · simp [splitAux, h, ih, List.takeWhile_cons]

theorem pySplitlines_head (l : List Char) (hl : l ≠ []) :
    (pySplitlines l).head? = some (l.takeWhile fun c => !isBreak c) := by
  have hhead : (splitBreaks l).head?
      = some (l.takeWhile fun c => !isBreak c) := by
    simpa [splitBreaks] using splitAux_head l []
  unfold pySplitlines
  split
  case isTrue hlast =>
    cases hr : splitBreaks l with
    | nil => exact absurd hr (splitAux_ne_nil l [])
    | cons x xs =>
      cases xs with
      | nil =>
        rw [hr] at hlast hhead
        have hx : x = [] := by simpa using hlast
        have hxt : x = l.takeWhile fun c => !isBreak c := by simpa using hhead
        cases l with
        | nil => exact absurd rfl hl
        | cons c cs =>
          rw [List.takeWhile_cons] at hxt
          by_cases hb : isBreak c
          · have hexp : splitBreaks (c :: cs) = [] :: splitAux cs [] := by
              simp [splitBreaks, splitAux, hb]
            rw [hr] at hexp
            cases hcons : splitAux cs [] with
            | nil => exact absurd hcons (splitAux_ne_nil cs [])
            | cons a b => rw [hcons] at hexp; cases hexp
          · rw [if_pos (by simpa using hb)] at hxt
            rw [hx] at hxt
            cases hxt
      | cons y t =>
        rw [hr] at hhead
        have hx : x = l.takeWhile fun c => !isBreak c := by simpa using hhead
        show ((x :: (y :: t).dropLast).head?) = _
        simpa using hx
  case isFalse h => exact hhead

theorem pyFirstLine_of_ne {m : String} (hm : m ≠ "") :
    pyFirstLine m = some (m.data.takeWhile fun c => !isBreak c) := by
  have hd : m.data ≠ [] := by
    intro h
    exact hm (String.ext (h.trans rfl))
  exact pySplitlines_head m.data hd

/-- If the subject traversal of a history whose messages are all nonempty
reports no hit, no commit of the history matches the subject. -/
theorem countP_zero_of_iter_false (subject : String) :
    ∀ (h : History), (∀ c ∈ h, c.message ≠ "") →
      iterSubject subject h = false →
      h.countP (subjMatch subject) = 0 := by
  intro h
  induction h with
  | nil => intro _ _; rfl
  | cons c rest ih =>
    intro hne hit
    have hc : c.message ≠ "" := hne c (List.mem_cons_self c rest)
    have hfl := pyFirstLine_of_ne hc
    simp only [iterSubject, hfl] at hit
    by_cases hmatch :
        pyStrip (c.message.data.takeWhile fun ch => !isBreak ch) = subject.data
    · rw [if_pos hmatch] at hit; cases hit
    · rw [if_neg hmatch] at hit
      have hrest := ih (fun d hd => hne d (List.mem_cons_of_mem c hd)) hit
      rw [List.countP_cons, hrest]
      simp [subjMatch, msgMatch, hfl, hmatch]

/-- The three pipeline subjects are pairwise distinct as (stripped first
lines of) commit messages, and none is empty. -/
theorem pipeline_msgMatch :
    (∀ S ∈ pipelineSubjects, ∀ M ∈ pipelineSubjects,
      msgMatch S M = decide (S = M)) ∧
    ∀ S ∈ pipelineSubjects, S ≠ "" := by decide

/-! ### Which state fields each operation touches -/

theorem indexAddPath_shape (s : St) (p : String) :
    ∃ idx, indexAddPath s p = { s with index := idx } := by
  unfold indexAddPath
  cases alook s.work p with
  | none => exact ⟨s.index, rfl⟩
  | some c => exact ⟨_, rfl⟩

theorem foldl_indexAddPath_shape (l : List String) (s : St) :
    ∃ idx, l.foldl indexAddPath s = { s with index := idx } := by
  induction l generalizing s with
  | nil => exact ⟨s.index, rfl⟩
  | cons p t ih =>
    obtain ⟨i1, h1⟩ := indexAddPath_shape s p
    obtain ⟨i2, h2⟩ := ih { s with index := i1 }
    rw [List.foldl_cons, h1, h2]
    exact ⟨i2, rfl⟩

theorem gitAddSubmodulePath_shape (s : St) :
    ∃ idx, (gitAddSubmodulePath s).1 = { s with index := idx } := by
  unfold gitAddSubmodulePath
  cases alook s.work "si_gh_actions/.git" with
  | some g => exact ⟨_, rfl⟩
  | none =>
    dsimp only
    split
    · split
      · exact ⟨s.index, rfl⟩
      · exact ⟨_, rfl⟩
    · exact ⟨_, rfl⟩

theorem stageGitmodules_shape (s : St) :
    ∃ idx, stageGitmodules s = { s with index := idx } := by
  unfold stageGitmodules
  split
  · exact indexAddPath_shape s ".gitmodules"
  · exact ⟨s.index, rfl⟩

theorem stageGitignore_shape (s : St) :
    ∃ idx, stageGitignore s = { s with index := idx } := by
  unfold stageGitignore
  split
  · exact indexAddPath_shape s ".gitignore"
  · exact ⟨s.index, rfl⟩

theorem stageCiFiles_shape (s : St) :
    ∃ idx, stageCiFiles s = { s with index := idx } :=
  foldl_indexAddPath_shape _ s

theorem stageGithubDir_shape (s : St) :
    ∃ idx, stageGithubDir s = { s with index := idx } := by
  unfold stageGithubDir
  split
  · exact ⟨_, rfl⟩
  · exact ⟨s.index, rfl⟩

theorem stage_shape (s : St) :
    ∃ idx, (stage_submodule_and_ci s).1 = { s with index := idx } := by
  obtain ⟨i1, h1⟩ := stageGitmodules_shape s
  unfold stage_submodule_and_ci
  rw [h1]
  obtain ⟨i2, h2⟩ := gitAddSubmodulePath_shape { s with index := i1 }
  rcases hga : gitAddSubmodulePath { s with index := i1 } with ⟨s2, e2⟩
  rw [hga] at h2
  cases e2 with
  | some e =>
    rw [andThen_err]
    exact ⟨i2, h2⟩
  | none =>
    rw [andThen_ok]
    have hs2 : s2 = { s with index := i2 } := h2
    obtain ⟨i3, h3⟩ := stageGitignore_shape s2
    obtain ⟨i4, h4⟩ := stageCiFiles_shape { s2 with index := i3 }
    obtain ⟨i5, h5⟩ := stageGithubDir_shape { s2 with index := i4 }
    refine ⟨i5, ?_⟩
    show stageGithubDir (stageCiFiles (stageGitignore s2)) = { s with index := i5 }
    rw [h3]
    have h4b : stageCiFiles { s2 with index := i3 } = { s2 with index := i4 } := h4
    rw [h4b]
    have h5b : stageGithubDir { s2 with index := i4 } = { s2 with index := i5 } := h5
    rw [h5b, hs2]

theorem commit_if_staged_fst (s : St) (m : String) :
    (commit_if_staged s m).1
      = if has_staged_changes s then indexCommit s m else s := by
  unfold commit_if_staged
  split <;> rfl

theorem gitCheckout_branches (s : St) (n : String) :
    ((gitCheckout s n).1).branches = s.branches := by
  unfold gitCheckout
  cases alook s.branches n with
  | none => rfl
  | some h =>
    dsimp only
    split <;> rfl

theorem gitCheckout_active (s : St) (n : String)
    (hok : (gitCheckout s n).2 = none) : ((gitCheckout s n).1).active = n := by
  unfold gitCheckout at hok ⊢
  cases halook : alook s.branches n with
  | none => rw [halook] at hok; cases hok
  | some h =>
    rw [halook] at hok
    dsimp only at hok ⊢
    split at hok
    · cases hok
    · split
      next hc hc2 => exact absurd hc2 hc
      next => rfl

theorem hygiene_fields (s : St) :
    (ciifyHygiene s).branches = s.branches ∧
    (ciifyHygiene s).active = s.active ∧
    (ciifyHygiene s).index = s.index := by
  unfold ciifyHygiene
  cases protect_gitmodules (alook s.work ".gitignore") <;> exact ⟨rfl, rfl, rfl⟩

/-! ### The branch-map invariant -/

/-- Every branch history has only nonempty commit messages and carries each
pipeline subject at most once. -/
def BranchInv (br : List (String × History)) : Prop :=
  ∀ bh ∈ br,
    (∀ c ∈ bh.2, c.message ≠ "") ∧
    ∀ S ∈ pipelineSubjects, bh.2.countP (subjMatch S) ≤ 1

theorem mem_aset {α : Type} {l : List (String × α)} {n : String} {v : α} :
    ∀ x ∈ aset l n v, x = (n, v) ∨ x ∈ l := by
  induction l with
  | nil =>
    intro x hx
    rw [aset] at hx
    exact Or.inl (List.mem_singleton.mp hx)
  | cons kv rest ih =>
    intro x hx
    obtain ⟨k1, v1⟩ := kv
    rw [aset] at hx
    by_cases hk : k1 = n
    · rw [if_pos hk] at hx
      rcases List.mem_cons.mp hx with h | h
      · exact Or.inl (by rw [h, hk])
      · exact Or.inr (List.mem_cons_of_mem _ h)
    · rw [if_neg hk] at hx
      rcases List.mem_cons.mp hx with h | h
      · exact Or.inr (h ▸ List.mem_cons_self _ _)
      · rcases ih x h with h2 | h2
        · exact Or.inl h2
        · exact Or.inr (List.mem_cons_of_mem _ h2)

theorem BranchInv_aset {br : List (String × History)} (hi : BranchInv br)
    {n : String} {h0 : History}
    (h0ne : ∀ c ∈ h0, c.message ≠ "")
    (h0cnt : ∀ S ∈ pipelineSubjects, h0.countP (subjMatch S) ≤ 1) :
    BranchInv (aset br n h0) := by
  intro bh hbh
  rcases mem_aset bh hbh with h | h
  · rw [h]
    exact ⟨h0ne, h0cnt⟩
  · exact hi bh h

theorem BranchInv_map_rename {br : List (String × History)}
    (hi : BranchInv br) (f : String → String) :
    BranchInv (br.map fun kv => (f kv.1, kv.2)) := by
  intro bh hbh
  obtain ⟨kv0, hkv0, heq⟩ := List.mem_map.mp hbh
  have hkv := hi kv0 hkv0
  rw [← heq]
  exact hkv

theorem BranchInv_getD {br : List (String × History)} (hi : BranchInv br)
    (a : String) :
    (∀ c ∈ (alook br a).getD [], c.message ≠ "") ∧
    ∀ S ∈ pipelineSubjects, ((alook br a).getD []).countP (subjMatch S) ≤ 1 := by
  cases ha : alook br a with
  | none => simp
  | some h =>
    have := hi (a, h) (alook_mem ha)
    simpa using this

theorem count_zero_of_guard_false {s : St} {b S : String}
    (hne : ∀ c ∈ (alook s.branches b).getD [], c.message ≠ "")
    (hg : has_commit_with_subject s b S = false) :
    ((alook s.branches b).getD []).countP (subjMatch S) = 0 := by
  unfold has_commit_with_subject at hg
  cases ha : alook s.branches b with
  | none => simp [ha]
  | some h =>
    rw [ha] at hg
    simp only [ha, Option.getD_some] at hne ⊢
    exact countP_zero_of_iter_false S h hne hg

theorem BranchInv_indexCommit {s : St} {M : String}
    (hi : BranchInv s.branches) (hM : M ∈ pipelineSubjects)
    (hzero : ((alook s.branches s.active).getD []).countP (subjMatch M) = 0) :
    BranchInv (indexCommit s M).branches := by
  show BranchInv (aset s.branches s.active
    (Commit.mk M s.index :: (alook s.branches s.active).getD []))
  apply BranchInv_aset hi
  · intro c hc
    rcases List.mem_cons.mp hc with h | h
    · rw [h]
      exact pipeline_msgMatch.2 M hM
    · exact (BranchInv_getD hi s.active).1 c h
  · intro S hS
    rw [List.countP_cons]
    rw [show subjMatch S (Commit.mk M s.index) = msgMatch S M from rfl]
    rw [pipeline_msgMatch.1 S hS M hM]
    by_cases hSM : S = M
    · subst hSM
      simp [hzero]
    · have hdec : decide (S = M) = false := by simp [hSM]
      rw [hdec]
      simpa using (BranchInv_getD hi s.active).2 S hS

/-! ### The invariant across the pipeline phases -/

theorem inv_getOntoMain (s : St) (hi : BranchInv s.branches) :
    BranchInv ((getOntoMain s).1).branches ∧
    ((getOntoMain s).2 = none → ((getOntoMain s).1).active = "main") := by
  unfold getOntoMain
  by_cases hb : branch_exists s "main"
  · rw [if_pos hb]
    exact ⟨(gitCheckout_branches s "main").symm ▸ hi,
      fun hok => gitCheckout_active s "main" hok⟩
  · rw [if_neg hb]
    exact ⟨BranchInv_map_rename hi fun k => if k = s.active then "main" else k,
      fun _ => rfl⟩

theorem inv_create_head (s : St) (n : String) (hi : BranchInv s.branches) :
    BranchInv ((create_head s n).1).branches ∧
    ((create_head s n).1).active = s.active := by
  unfold create_head
  cases alook s.branches n with
  | some h =>
    dsimp only
    split <;> exact ⟨hi, rfl⟩
  | none =>
    refine ⟨?_, rfl⟩
    exact BranchInv_aset hi (BranchInv_getD hi s.active).1 (BranchInv_getD hi s.active).2

theorem inv_ensureDev (s : St) (hi : BranchInv s.branches) :
    BranchInv ((ensureDevStep s).1).branches ∧
    ((ensureDevStep s).2 = none → ((ensureDevStep s).1).active = "dev") := by
  unfold ensureDevStep ensure_checked_out
  by_cases hb : branch_exists s "dev"
  · rw [if_pos hb]
    exact ⟨(gitCheckout_branches s "dev").symm ▸ hi,
      fun hok => gitCheckout_active s "dev" hok⟩
  · rw [if_neg hb]
    rcases hch : create_head s "dev" with ⟨s1, e1⟩
    have hc := inv_create_head s "dev" hi
    rw [hch] at hc
    cases e1 with
    | some e =>
      rw [andThen_err]
      exact ⟨hc.1, fun hok => by cases hok⟩
    | none =>
      rw [andThen_ok]
      exact ⟨(gitCheckout_branches s1 "dev").symm ▸ hc.1,
        fun hok => gitCheckout_active s1 "dev" hok⟩

/-- A commit-gated step: given the guard on branch `b` (with `b` the active
branch) was false, staging plus `commit_if_staged` preserves the invariant. -/
theorem inv_commit_phase {s1 : St} {M : String}
    (hi1 : BranchInv s1.branches) (hM : M ∈ pipelineSubjects)
    (hzero : ((alook s1.branches s1.active).getD []).countP (subjMatch M) = 0) :
    BranchInv ((commit_if_staged s1 M).1).branches ∧
    ((commit_if_staged s1 M).1).active = s1.active := by
  rw [commit_if_staged_fst]
  split
  · exact ⟨BranchInv_indexCommit hi1 hM hzero, rfl⟩
  · exact ⟨hi1, rfl⟩

theorem inv_boardfulStep (s : St) (hi : BranchInv s.branches)
    (ha : s.active = "main") :
    BranchInv ((boardfulStep s).1).branches ∧
    ((boardfulStep s).1).active = s.active := by
  unfold boardfulStep
  by_cases hg : has_commit_with_subject s "main" bfSubject
  · rw [if_pos hg]
    exact ⟨hi, rfl⟩
  · rw [if_neg hg]
    obtain ⟨i1, h1⟩ := stage_shape s
    rcases hst : stage_submodule_and_ci s with ⟨s1, e1⟩
    rw [hst] at h1
    have hs1 : s1 = { s with index := i1 } := h1
    cases e1 with
    | some e =>
      rw [andThen_err]
      rw [hs1]
      exact ⟨hi, ha ▸ rfl⟩
    | none =>
      rw [andThen_ok]
      cases hassert : assert_gitlink s1 with
      | some e =>
        rw [hs1]
        exact ⟨hi, rfl⟩
      | none =>
        have hi1 : BranchInv s1.branches := by rw [hs1]; exact hi
        have hzero : ((alook s1.branches s1.active).getD []).countP
            (subjMatch bfSubject) = 0 := by
          rw [hs1]
          show ((alook s.branches s.active).getD []).countP (subjMatch bfSubject) = 0
          rw [ha]
          exact count_zero_of_guard_false (BranchInv_getD hi "main").1
            (Bool.of_not_eq_true hg)
        have := inv_commit_phase hi1 (by simp [pipelineSubjects]) hzero
        exact ⟨this.1, by rw [this.2, hs1]⟩

theorem inv_ciStep (s : St) (hi : BranchInv s.branches)
    (ha : s.active = "dev") :
    BranchInv ((ciStep s).1).branches ∧
    ((ciStep s).1).active = s.active := by
  unfold ciStep
  by_cases hg : has_commit_with_subject s "dev" ciSubject
  · rw [if_pos hg]
    exact ⟨hi, rfl⟩
  · rw [if_neg hg]
    obtain ⟨i1, h1⟩ := stage_shape { s with work := copy_files_to_root s.work }
    rcases hst : stage_submodule_and_ci { s with work := copy_files_to_root s.work }
      with ⟨s1, e1⟩
    rw [hst] at h1
    have hs1 : s1 = { s with work := copy_files_to_root s.work, index := i1 } := h1
    cases e1 with
    | some e =>
      rw [andThen_err]
      rw [hs1]
      exact ⟨hi, rfl⟩
    | none =>
      rw [andThen_ok]
      have hi1 : BranchInv s1.branches := by rw [hs1]; exact hi
      have hzero : ((alook s1.branches s1.active).getD []).countP
          (subjMatch ciSubject) = 0 := by
        rw [hs1]
        show ((alook s.branches s.active).getD []).countP (subjMatch ciSubject) = 0
        rw [ha]
        exact count_zero_of_guard_false (BranchInv_getD hi "dev").1
          (Bool.of_not_eq_true hg)
      have := inv_commit_phase hi1 (by simp [pipelineSubjects]) hzero
      exact ⟨this.1, by rw [this.2, hs1]⟩

theorem inv_boardlessStep (s : St) (hi : BranchInv s.branches)
    (ha : s.active = "dev") :
    BranchInv ((boardlessStep s).1).branches ∧
    ((boardlessStep s).1).active = s.active := by
  unfold boardlessStep
  by_cases hg : has_commit_with_subject s "dev" blSubject
  · rw [if_pos hg]
    exact ⟨hi, rfl⟩
  · rw [if_neg hg]
    obtain ⟨i1, h1⟩ := stage_shape s
    rcases hst : stage_submodule_and_ci s with ⟨s1, e1⟩
    rw [hst] at h1
    have hs1 : s1 = { s with index := i1 } := h1
    cases e1 with
    | some e =>
      rw [andThen_err]
      rw [hs1]
      exact ⟨hi, rfl⟩
    | none =>
      rw [andThen_ok]
      cases hassert : assert_gitlink s1 with
      | some e =>
        rw [hs1]
        exact ⟨hi, rfl⟩
      | none =>
        have hi1 : BranchInv s1.branches := by rw [hs1]; exact hi
        have hzero : ((alook s1.branches s1.active).getD []).countP
            (subjMatch blSubject) = 0 := by
          rw [hs1]
          show ((alook s.branches s.active).getD []).countP (subjMatch blSubject) = 0
          rw [ha]
          exact count_zero_of_guard_false (BranchInv_getD hi "dev").1
            (Bool.of_not_eq_true hg)
        have := inv_commit_phase hi1 (by simp [pipelineSubjects]) hzero
        exact ⟨this.1, by rw [this.2, hs1]⟩

theorem inv_ciifyMain (s : St) (hi : BranchInv s.branches) :
    BranchInv ((ciifyMain s).1).branches := by
  unfold ciifyMain
  rcases h1 : getOntoMain s with ⟨s1, e1⟩
  have hgo := inv_getOntoMain s hi
  rw [h1] at hgo
  cases e1 with
  | some e => rw [andThen_err]; exact hgo.1
  | none =>
    rw [andThen_ok]
    have hi1 : BranchInv s1.branches := hgo.1
    have ha1 : s1.active = "main" := hgo.2 rfl
    have hhyg := hygiene_fields s1
    have hi2 : BranchInv (ciifyHygiene s1).branches := by rw [hhyg.1]; exact hi1
    have ha2 : (ciifyHygiene s1).active = "main" := by rw [hhyg.2.1]; exact ha1
    rcases h3 : boardfulStep (ciifyHygiene s1) with ⟨s3, e3⟩
    have hbf := inv_boardfulStep (ciifyHygiene s1) hi2 ha2
    rw [h3] at hbf
    cases e3 with
    | some e => rw [andThen_err]; exact hbf.1
    | none =>
      rw [andThen_ok]
      have hi3 : BranchInv s3.branches := hbf.1
      rcases h4 : ensureDevStep s3 with ⟨s4, e4⟩
      have hed := inv_ensureDev s3 hi3
      rw [h4] at hed
      cases e4 with
      | some e => rw [andThen_err]; exact hed.1
      | none =>
        rw [andThen_ok]
        have hi4 : BranchInv s4.branches := hed.1
        have ha4 : s4.active = "dev" := hed.2 rfl
        rcases h5 : ciStep s4 with ⟨s5, e5⟩
        have hci := inv_ciStep s4 hi4 ha4
        rw [h5] at hci
        cases e5 with
        | some e => rw [andThen_err]; exact hci.1
        | none =>
          rw [andThen_ok]
          have hi5 : BranchInv s5.branches := hci.1
          have ha5 : s5.active = "dev" := by rw [hci.2]; exact ha4
          exact (inv_boardlessStep s5 hi5 ha5).1

/-! ### C1: counterexample, amended statement, witness -/

/-- The C1 counterexample repository: `main` and `dev` both at a commit that
already carries the Boardful subject; a proper submodule (`.git` file) whose
`.gitignore` lacks the `!.gitmodules` line; the root `.gitignore` tracked with
the same content; `CHANGELOG.md` present only inside the submodule. -/
def cexTree : Tree :=
  [(".gitignore", ⟨.regular, "build/"⟩),
   (".gitmodules", ⟨.regular, "[submodule]"⟩),
   ("si_gh_actions", ⟨.gitlink, "sha1"⟩)]

def cexCommit : Commit := ⟨"Initial Boardful commit", cexTree⟩

def cexSt : St :=
  { branches := [("main", [cexCommit]), ("dev", [cexCommit])]
    active := "main"
    index := cexTree
    work := [(".gitignore", "build/"), (".gitmodules", "[submodule]"),
             ("si_gh_actions/.git", "sha1"),
             ("si_gh_actions/.gitignore", "build/"),
             ("si_gh_actions/CHANGELOG.md", "changelog")]
    ignored := [] }

set_option maxRecDepth 8000 in
/-- C1 counterexample: from `cexSt`, both runs of `main()` finish without
error, yet after the first run no commit with subject "Initial Boardless
commit" is reachable from `dev` (so `hasCommitWithSubject` is NOT true for
all three subjects), and the second run changes `dev`'s history — it commits
the `.gitignore` line that `protect_gitmodules` appended after the first
run's CI step had overwritten the file — so the final branch tips of the two
runs differ. -/
theorem claim_C1_counterexample :
    (ciifyMain cexSt).2 = none ∧
    (ciifyMain (ciifyMain cexSt).1).2 = none ∧
    has_commit_with_subject (ciifyMain cexSt).1 "dev" blSubject = false ∧
    alook ((ciifyMain (ciifyMain cexSt).1).1).branches "dev"
      ≠ alook ((ciifyMain cexSt).1).branches "dev" := by
  decide

/-- C1 (amended): the pipeline never duplicates its commit subjects: if every
branch of the starting repository has only nonempty commit messages and
carries each of the three pipeline subjects at most once, then after running
`ciify.main` — and after running it twice in succession — every branch still
carries each subject at most once.  (The original claim's stronger conjuncts
are false on the code: the second run can produce different branch tips, and
a run need not make all three subjects reachable; see the counterexample.) -/
theorem claim_C1_no_duplicate_subjects (s : St)
    (hmsgs : ∀ bh ∈ s.branches, ∀ c ∈ bh.2, c.message ≠ "")
    (honce : ∀ bh ∈ s.branches, ∀ S ∈ pipelineSubjects,
      bh.2.countP (subjMatch S) ≤ 1) :
    (∀ b S, S ∈ pipelineSubjects → countSubj (ciifyMain s).1 b S ≤ 1) ∧
    (∀ b S, S ∈ pipelineSubjects →
      countSubj (ciifyMain (ciifyMain s).1).1 b S ≤ 1) := by
  have hinv : BranchInv s.branches := fun bh hbh => ⟨hmsgs bh hbh, honce bh hbh⟩
  have h1 := inv_ciifyMain s hinv
  have h2 := inv_ciifyMain (ciifyMain s).1 h1
  constructor
  · intro b S hS
    unfold countSubj
    cases ha : alook ((ciifyMain s).1).branches b with
    | none => simp
    | some h => simpa using (h1 (b, h) (alook_mem ha)).2 S hS
  · intro b S hS
    unfold countSubj
    cases ha : alook ((ciifyMain (ciifyMain s).1).1).branches b with
    | none => simp
    | some h => simpa using (h2 (b, h) (alook_mem ha)).2 S hS

set_option maxRecDepth 8000 in
/-- C1 witness: the amended theorem applied to the concrete repository
`cexSt`. -/
theorem claim_C1_witness :
    countSubj (ciifyMain cexSt).1 "dev" blSubject ≤ 1 :=
  (claim_C1_no_duplicate_subjects cexSt (by decide) (by decide)).1 "dev"
    blSubject (by decide)

/-! ## C2: the gitlink assertion -/

/-- C2 (amended): after the Boardful step stages the submodule path,
`main()` checks the index mode at that path; when it is not gitlink mode
160000 (`assert_gitlink` fails — the last conjunct characterises the check)
the pipeline raises `SubmoduleIntegrityError`, all remaining steps are
aborted, the branches are unchanged, and the step's commit is not created.
The Boardless step guards its commit the same way (fourth conjunct), but
the CI-assets step stages the submodule path with no gitlink check at all —
see the counterexample, where it commits a non-gitlink submodule. -/
theorem claim_C2_gitlink_abort (s s1 s2 t : St)
    (h1 : getOntoMain s = (s1, none))
    (h2 : ciifyHygiene s1 = s2)
    (hg : has_commit_with_subject s2 "main" bfSubject = false)
    (hstage : stage_submodule_and_ci s2 = (t, none))
    (hmode : assert_gitlink t = some Err.submoduleIntegrity) :
    ciifyMain s = (t, some Err.submoduleIntegrity) ∧
    t.branches = s2.branches ∧
    has_commit_with_subject t "main" bfSubject = false ∧
    (∀ u t2 : St, has_commit_with_subject u "dev" blSubject = false →
      stage_submodule_and_ci u = (t2, none) →
      assert_gitlink t2 = some Err.submoduleIntegrity →
      boardlessStep u = (t2, some Err.submoduleIntegrity) ∧
      t2.branches = u.branches ∧
      has_commit_with_subject t2 "dev" blSubject = false) ∧
    (∀ u : St, assert_gitlink u = none ↔
      ∃ c, alook u.index "si_gh_actions" = some ⟨FMode.gitlink, c⟩) := by
  have hbr : t.branches = s2.branches := by
    obtain ⟨i, hsh⟩ := stage_shape s2
    rw [hstage] at hsh
    rw [show t = { s2 with index := i } from hsh]
  refine ⟨?_, hbr, ?_, ?_, ?_⟩
  · unfold ciifyMain
    rw [h1, andThen_ok, h2]
    unfold boardfulStep
    rw [if_neg (by simp [hg]), hstage, andThen_ok, hmode]
    rfl
  · unfold has_commit_with_subject at hg ⊢
    rw [hbr]
    exact hg
  · intro u t2 hgu hstu hmu
    have hbr2 : t2.branches = u.branches := by
      obtain ⟨i, hsh⟩ := stage_shape u
      rw [hstu] at hsh
      rw [show t2 = { u with index := i } from hsh]
    refine ⟨?_, hbr2, ?_⟩
    · unfold boardlessStep
      rw [if_neg (by simp [hgu]), hstu, andThen_ok, hmu]
    · unfold has_commit_with_subject at hgu ⊢
      rw [hbr2]
      exact hgu
  · intro u
    unfold assert_gitlink
    cases he : alook u.index "si_gh_actions" with
    | none => simp
    | some e =>
      obtain ⟨m, c⟩ := e
      cases m with
      | regular => simp
      | gitlink => simp

/-- The C2 counterexample repository: `main` already carries the Boardful
subject, and `si_gh_actions` is a plain directory (no `.git` file or
directory), so staging it yields regular-file entries, not a gitlink. -/
def cex2St : St :=
  { branches := [("main", [⟨"Initial Boardful commit", []⟩])]
    active := "main"
    index := []
    work := [("si_gh_actions/x.txt", "x")]
    ignored := [] }

set_option maxRecDepth 8000 in
/-- C2 counterexample: from `cex2St`, the CI-assets step stages the
submodule path while the index holds it as a regular file (no gitlink entry
at the path), performs no gitlink check, and still creates its commit
"CI: add workflows and metadata"; only the later Boardless step's assertion
raises.  So it is not true that after ANY step that stages the submodule
path a wrong mode raises before the step's commit. -/
theorem claim_C2_counterexample :
    has_commit_with_subject (ciifyMain cex2St).1 "dev" ciSubject = true ∧
    alook ((ciifyMain cex2St).1).index "si_gh_actions/x.txt"
      = some ⟨FMode.regular, "x"⟩ ∧
    alook ((ciifyMain cex2St).1).index "si_gh_actions" = none ∧
    (ciifyMain cex2St).2 = some Err.submoduleIntegrity := by
  decide

/-- The state used to instantiate the C2 theorem: like `cex2St` but without
the Boardful commit, so the Boardful step itself trips the assertion. -/
def cex2bSt : St :=
  { branches := [("main", [⟨"init", []⟩])]
    active := "main"
    index := []
    work := [("si_gh_actions/x.txt", "x")]
    ignored := [] }

set_option maxRecDepth 8000 in
/-- C2 witness: the abort theorem applied to `cex2bSt`. -/
theorem claim_C2_witness :
    ciifyMain cex2bSt
      = ((stage_submodule_and_ci (ciifyHygiene (getOntoMain cex2bSt).1)).1,
         some Err.submoduleIntegrity) :=
  (claim_C2_gitlink_abort cex2bSt (getOntoMain cex2bSt).1
    (ciifyHygiene (getOntoMain cex2bSt).1)
    (stage_submodule_and_ci (ciifyHygiene (getOntoMain cex2bSt).1)).1
    (by decide) rfl (by decide) (by decide) (by decide)).1

/-! ## C3: `has_commit_with_subject` -/

/-- Modelled from the spec's words (§4.3): the first message line of a
commit, exactly as written (`""` when the message has no lines). -/
def specFirstLine (m : String) : String :=
  String.mk ((pySplitlines m.data).head?.getD [])

theorem iterSubject_iff (subject : String) :
    ∀ (h : History), (∀ c ∈ h, c.message ≠ "") →
      (iterSubject subject h = true ↔ ∃ c ∈ h, subjMatch subject c = true) := by
  intro h
  induction h with
  | nil => intro _; simp [iterSubject]
  | cons c rest ih =>
    intro hne
    have hc := hne c (List.mem_cons_self c rest)
    have hfl := pyFirstLine_of_ne hc
    have ihr := ih fun d hd => hne d (List.mem_cons_of_mem c hd)
    simp only [iterSubject, hfl]
    by_cases hm : pyStrip (c.message.data.takeWhile fun ch => !isBreak ch)
        = subject.data
    · simp only [if_pos hm]
      constructor
      · intro _
        exact ⟨c, List.mem_cons_self c rest,
          by simp [subjMatch, msgMatch, hfl, hm]⟩
      · intro _; trivial
    · simp only [if_neg hm]
      rw [ihr]
      constructor
      · rintro ⟨d, hd, hmd⟩
        exact ⟨d, List.mem_cons_of_mem c hd, hmd⟩
      · rintro ⟨d, hd, hmd⟩
        rcases List.mem_cons.mp hd with he | he
        · subst he
          exfalso
          apply hm
          have hdm : msgMatch subject d.message = true := hmd
          rw [msgMatch, hfl] at hdm
          simpa using hdm
        · exact ⟨d, he, hmd⟩

/-- C3 (amended): `has_commit_with_subject` returns false when the reference
does not exist (rather than raising); and — provided every reachable commit
has a nonempty message — it returns true iff some reachable commit's first
message line, STRIPPED of surrounding whitespace, equals the subject.  The
original "exactly equal to the first line" reading fails because of the
stripping (see the counterexample) and because an empty-message commit makes
the traversal's IndexError return false early. -/
theorem claim_C3_hcws_spec (s : St) (rev subject : String) :
    (alook s.branches rev = none →
      has_commit_with_subject s rev subject = false) ∧
    (∀ h, alook s.branches rev = some h → (∀ c ∈ h, c.message ≠ "") →
      (has_commit_with_subject s rev subject = true ↔
        ∃ c ∈ h, pyStrip (specFirstLine c.message).data = subject.data)) := by
  constructor
  · intro hnone
    unfold has_commit_with_subject
    rw [hnone]
  · intro h hsome hne
    unfold has_commit_with_subject
    rw [hsome]
    rw [iterSubject_iff subject h hne]
    constructor
    · rintro ⟨c, hc, hmc⟩
      refine ⟨c, hc, ?_⟩
      have hfl := pyFirstLine_of_ne (hne c hc)
      have hdm : msgMatch subject c.message = true := hmc
      rw [msgMatch, hfl] at hdm
      have hline : specFirstLine c.message
          = String.mk (c.message.data.takeWhile fun ch => !isBreak ch) := by
        unfold specFirstLine
        unfold pyFirstLine at hfl
        rw [hfl]
        rfl
      rw [hline]
      simpa using hdm
    · rintro ⟨c, hc, hmc⟩
      refine ⟨c, hc, ?_⟩
      have hfl := pyFirstLine_of_ne (hne c hc)
      have hline : specFirstLine c.message
          = String.mk (c.message.data.takeWhile fun ch => !isBreak ch) := by
        unfold specFirstLine
        unfold pyFirstLine at hfl
        rw [hfl]
        rfl
      rw [hline] at hmc
      show msgMatch subject c.message = true
      rw [msgMatch, hfl]
      simpa using hmc

/-- The C3 counterexample repository: one commit on branch `b` whose first
message line is `"  hello  "` (whitespace around it). -/
def cex3St : St :=
  { branches := [("b", [⟨"  hello  \nbody", []⟩])]
    active := "b"
    index := []
    work := []
    ignored := [] }

/-- C3 counterexample: `has_commit_with_subject` reports true for subject
`"hello"`, yet no commit reachable from `b` has its first message line
exactly equal to `"hello"` — the code compares the STRIPPED first line. -/
theorem claim_C3_counterexample :
    has_commit_with_subject cex3St "b" "hello" = true ∧
    ¬ ∃ c ∈ [(⟨"  hello  \nbody", []⟩ : Commit)],
      specFirstLine c.message = "hello" := by decide

/-- C3 witness: the theorem applied to `cex3St` and a missing reference. -/
theorem claim_C3_witness :
    has_commit_with_subject cex3St "nonexistent" "hello" = false :=
  (claim_C3_hcws_spec cex3St "nonexistent" "hello").1 (by decide)

/-! ## C5: `commitIfPending` -/

/-- C5: `commit_if_staged` and `commit_if_needed` create exactly one new
commit with the given message iff pending changes exist in their respective
scopes (staged-only, resp. staged+unstaged+untracked); with nothing pending
they leave the state unchanged and report "nothing to commit" (the returned
flag is false; no exception path exists). -/
theorem claim_C5_commit_if_pending (s : St) (m : String) :
    ((commit_if_staged s m).2 = has_staged_changes s) ∧
    (has_staged_changes s = true →
      alook ((commit_if_staged s m).1).branches s.active
        = some (⟨m, s.index⟩ :: (alook s.branches s.active).getD []) ∧
      ∀ b, b ≠ s.active →
        alook ((commit_if_staged s m).1).branches b = alook s.branches b) ∧
    (has_staged_changes s = false → (commit_if_staged s m).1 = s) ∧
    ((commit_if_needed s m).2 = is_dirty s) ∧
    (is_dirty s = true →
      alook ((commit_if_needed s m).1).branches s.active
        = some (⟨m, s.index⟩ :: (alook s.branches s.active).getD []) ∧
      ∀ b, b ≠ s.active →
        alook ((commit_if_needed s m).1).branches b = alook s.branches b) ∧
    (is_dirty s = false → (commit_if_needed s m).1 = s) := by
  refine ⟨?_, ?_, ?_, ?_, ?_, ?_⟩
  · unfold commit_if_staged
    split
    next hcond => simp [hcond]
    next hcond => simp [Bool.of_not_eq_true hcond]
  · intro hst
    unfold commit_if_staged
    rw [if_pos hst]
    constructor
    · show alook (aset s.branches s.active _) s.active = _
      rw [alook_aset, if_pos rfl]
    · intro b hb
      show alook (aset s.branches s.active _) b = _
      rw [alook_aset, if_neg (fun he => hb he.symm)]
  · intro hst
    unfold commit_if_staged
    rw [if_neg (by simp [hst])]
  · unfold commit_if_needed
    split
    next hcond => simp [hcond]
    next hcond => simp [Bool.of_not_eq_true hcond]
  · intro hst
    unfold commit_if_needed
    rw [if_pos hst]
    constructor
    · show alook (aset s.branches s.active _) s.active = _
      rw [alook_aset, if_pos rfl]
    · intro b hb
      show alook (aset s.branches s.active _) b = _
      rw [alook_aset, if_neg (fun he => hb he.symm)]
  · intro hst
    unfold commit_if_needed
    rw [if_neg (by simp [hst])]

/-- C5 witness: the theorem at a concrete repository with staged changes
(the index differs from the tip) and at one with nothing pending. -/
theorem claim_C5_witness :
    alook ((commit_if_staged
        { branches := [("main", [⟨"init", []⟩])], active := "main",
          index := [("a.txt", ⟨FMode.regular, "a"⟩)], work := [],
          ignored := [] } "msg").1).branches "main"
      = some [⟨"msg", [("a.txt", ⟨FMode.regular, "a"⟩)]⟩, ⟨"init", []⟩] := by
  have h := (claim_C5_commit_if_pending
    { branches := [("main", [⟨"init", []⟩])], active := "main",
      index := [("a.txt", ⟨FMode.regular, "a"⟩)], work := [],
      ignored := [] } "msg").2.1 (by decide)
  simpa using h.1

/-! ## boardlessify.py: `stage_and_commit` (lines 42–80) -/

/-- `git ls-files --others --exclude-standard` (line 48): working-tree paths
not in the index and not excluded by ignore rules, in tree order. -/
def untrackedFiles (s : St) : List String :=
  (s.work.filter fun pc =>
    (alook s.index pc.1).isNone && !(s.ignored.contains pc.1)).map Prod.fst

/-- `repo.index.add(untracked_files)` (line 52). -/
def addUntracked (s : St) : St :=
  (untrackedFiles s).foldl indexAddPath s

/-- The `a_path`s of `repo.index.diff(None)` (line 55): tracked regular
files whose working copy differs or is gone (submodule gitlinks produce no
file diff). -/
def modifiedFiles (s : St) : List String :=
  (s.index.filter fun pe =>
    pe.2.mode == FMode.regular && alook s.work pe.1 != some pe.2.content).map
    Prod.fst

/-- The `change_type == "D"` sublist (lines 56–58): tracked regular files
missing from the working tree. -/
def deletedFiles (s : St) : List String :=
  (s.index.filter fun pe =>
    pe.2.mode == FMode.regular && (alook s.work pe.1).isNone).map Prod.fst

/-- The staging part of boardlessify's `stage_and_commit`: add untracked
files, remove the deleted paths from the index (line 64), then add the
modified paths that were not deleted (lines 67–73). -/
def blfStage (s : St) : St :=
  let s1 := addUntracked s
  let deleted := deletedFiles s1
  let s2 := { s1 with index := deleted.foldl adel s1.index }
  ((modifiedFiles s1).filter fun p => !(deleted.contains p)).foldl
    indexAddPath s2

/-- boardlessify's `stage_and_commit` (lines 42–80): stage, then commit iff
any of the three lists was nonempty (lines 76–80). -/
def blf_stage_and_commit (s : St) (message : String) : St × Bool :=
  if !(untrackedFiles s).isEmpty || !(modifiedFiles (addUntracked s)).isEmpty
      || !(deletedFiles (addUntracked s)).isEmpty then
    (indexCommit (blfStage s) message, true)
  else (blfStage s, false)

/-! ### C4: deletion/addition disjointness -/

theorem alook_isSome_of_mem {w : WorkTree} {p c : String}
    (h : (p, c) ∈ w) : (alook w p).isSome = true := by
  induction w with
  | nil => cases h
  | cons qc rest ih =>
    obtain ⟨q, d⟩ := qc
    rcases List.mem_cons.mp h with he | he
    · rw [alook, if_pos (congrArg Prod.fst he.symm)]
      rfl
    · by_cases hq : q = p
      · rw [alook, if_pos hq]; rfl
      · rw [alook, if_neg hq]; exact ih he

theorem addUntracked_shape (s : St) :
    ∃ idx, addUntracked s = { s with index := idx } :=
  foldl_indexAddPath_shape _ s

theorem mem_deletedFiles_work {s1 : St} {p : String}
    (h : p ∈ deletedFiles s1) : (alook s1.work p).isNone = true := by
  unfold deletedFiles at h
  obtain ⟨pe, hpe, hfst⟩ := List.mem_map.mp h
  have hc := (List.mem_filter.mp hpe).2
  rw [Bool.and_eq_true] at hc
  rw [← hfst]
  exact hc.2

theorem mem_deletedFiles_modified {s1 : St} {p : String}
    (h : p ∈ deletedFiles s1) : p ∈ modifiedFiles s1 := by
  unfold deletedFiles at h
  obtain ⟨pe, hpe, hfst⟩ := List.mem_map.mp h
  have hmem := (List.mem_filter.mp hpe).1
  have hc := (List.mem_filter.mp hpe).2
  rw [Bool.and_eq_true] at hc
  unfold modifiedFiles
  refine List.mem_map.mpr ⟨pe, List.mem_filter.mpr ⟨hmem, ?_⟩, hfst⟩
  rw [Bool.and_eq_true]
  refine ⟨hc.1, ?_⟩
  rw [Option.isNone_iff_eq_none.mp hc.2]
  rfl

theorem mem_untracked_work {s : St} {p : String}
    (h : p ∈ untrackedFiles s) : (alook s.work p).isSome = true := by
  unfold untrackedFiles at h
  obtain ⟨pc, hpc, hfst⟩ := List.mem_map.mp h
  have hmem := (List.mem_filter.mp hpc).1
  obtain ⟨q, c⟩ := pc
  cases hfst
  exact alook_isSome_of_mem hmem

theorem contains_eq_true_of_mem {l : List String} {a : String} (h : a ∈ l) :
    l.contains a = true := List.elem_eq_true_of_mem h

theorem alook_foldl_adel_other (dels : List String) (idx : Tree) (p : String)
    (hp : p ∉ dels) : alook (dels.foldl adel idx) p = alook idx p := by
  induction dels generalizing idx with
  | nil => rfl
  | cons d rest ih =>
    rw [List.foldl_cons]
    rw [ih _ fun hm => hp (List.mem_cons_of_mem d hm)]
    rw [alook_adel,
      if_neg fun he => hp (by rw [← he]; exact List.mem_cons_self d rest)]

theorem alook_foldl_adel_self (dels : List String) (idx : Tree) (p : String)
    (hp : p ∈ dels) : alook (dels.foldl adel idx) p = none := by
  induction dels generalizing idx with
  | nil => cases hp
  | cons d rest ih =>
    rw [List.foldl_cons]
    by_cases hrest : p ∈ rest
    · exact ih _ hrest
    · have hd : p = d := by
        rcases List.mem_cons.mp hp with he | he
        · exact he
        · exact absurd he hrest
      rw [alook_foldl_adel_other rest _ p hrest, alook_adel, if_pos hd.symm]

theorem alook_index_foldl_add_other (l : List String) (s : St) (p : String)
    (hp : p ∉ l) : alook ((l.foldl indexAddPath s).index) p = alook s.index p := by
  induction l generalizing s with
  | nil => rfl
  | cons q rest ih =>
    rw [List.foldl_cons]
    rw [ih _ fun hm => hp (List.mem_cons_of_mem q hm)]
    unfold indexAddPath
    cases alook s.work q with
    | none => rfl
    | some c =>
      show alook (aset s.index q _) p = _
      rw [alook_aset,
        if_neg fun he => hp (by rw [← he]; exact List.mem_cons_self q rest)]

/-- C4: in boardlessify's staging step the deleted paths are a subset of the
modified paths; the paths added afterwards are exactly the modified paths
that were not deleted; no path is passed both to the index-remove and to an
index-add (neither the untracked adds nor the remaining-modified adds meet
the deleted list); and because removal happens first and nothing re-adds a
deleted path, every deleted path is absent from the staged index. -/
theorem claim_C4_stage_disjoint (s : St) (m p : String) :
    (p ∈ deletedFiles (addUntracked s) → p ∈ modifiedFiles (addUntracked s)) ∧
    ((p ∈ untrackedFiles s ∨
        p ∈ (modifiedFiles (addUntracked s)).filter
          (fun q => !((deletedFiles (addUntracked s)).contains q))) →
      p ∉ deletedFiles (addUntracked s)) ∧
    (p ∈ deletedFiles (addUntracked s) →
      alook ((blf_stage_and_commit s m).1).index p = none) := by
  obtain ⟨iu, hu⟩ := addUntracked_shape s
  refine ⟨mem_deletedFiles_modified, ?_, ?_⟩
  · rintro (hun | hrem) hdel
    · have hw : (alook (addUntracked s).work p).isNone = true :=
        mem_deletedFiles_work hdel
      rw [hu] at hw
      have hsome := mem_untracked_work hun
      rw [Option.isNone_iff_eq_none.mp hw] at hsome
      cases hsome
    · have hc := (List.mem_filter.mp hrem).2
      rw [Bool.not_eq_true'] at hc
      rw [contains_eq_true_of_mem hdel] at hc
      cases hc
  · intro hdel
    have hnotrem : p ∉ (modifiedFiles (addUntracked s)).filter
        (fun q => !((deletedFiles (addUntracked s)).contains q)) := by
      intro hrem
      have hc := (List.mem_filter.mp hrem).2
      rw [Bool.not_eq_true'] at hc
      rw [contains_eq_true_of_mem hdel] at hc
      cases hc
    have hidx : alook (blfStage s).index p = none := by
      show alook (((modifiedFiles (addUntracked s)).filter
        (fun q => !((deletedFiles (addUntracked s)).contains q))).foldl
          indexAddPath
          { addUntracked s with
            index := (deletedFiles (addUntracked s)).foldl adel
              (addUntracked s).index }).index p = none
      rw [alook_index_foldl_add_other _ _ _ hnotrem]
      exact alook_foldl_adel_self _ _ _ hdel
    unfold blf_stage_and_commit
    split
    · exact hidx
    · exact hidx

/-- C4 witness: a repository where `a.txt` is tracked but deleted from the
working tree while `b.txt` is untracked: `a.txt` is removed and stays out of
the staged index. -/
def c4St : St :=
  { branches := [("main", [⟨"init", [("a.txt", ⟨FMode.regular, "a"⟩)]⟩])]
    active := "main"
    index := [("a.txt", ⟨FMode.regular, "a"⟩)]
    work := [("b.txt", "b")]
    ignored := [] }

theorem claim_C4_witness :
    alook ((blf_stage_and_commit c4St "msg").1).index "a.txt" = none :=
  (claim_C4_stage_disjoint c4St "msg" "a.txt").2.2 (by decide)

/-! ## boardlessify.py: `main` (lines 143–179) -/

/-- Source/destination pairs of boardlessify's `copy_files_to_root`
(lines 11–15; no `target_info.yaml` in this variant). -/
def blfCopySources : List (String × String) :=
  [("si_gh_actions/CHANGELOG.md", "CHANGELOG.md"),
   ("si_gh_actions/VERSION.md", "VERSION.md"),
   ("si_gh_actions/.gitignore", ".gitignore")]

/-- boardlessify's `copy_files_to_root` (lines 7–39). -/
def blf_copy_files_to_root (w : WorkTree) : WorkTree :=
  copyGithubTree (blfCopySources.foldl copyOne w)

/-- Outcomes of `boardlessify.main`: finished normally, returned early
through the caught `GitCommandError` (lines 167–169), or died on an
uncaught exception. -/
inductive BOut where
  | finished
  | earlyReturn
  | raised (e : Err)
deriving DecidableEq, Repr

/-- The part of `boardlessify.main` before branch creation (lines 152–160):
`stage_and_commit("Initial Boardful commit")` then `copy_files_to_root()`. -/
def blfPrelude (s : St) : St :=
  let s1 := (blf_stage_and_commit s bfSubject).1
  { s1 with work := blf_copy_files_to_root s1.work }

/-- `boardlessify.main` (lines 143–179).  `repo.create_head("dev")` is
GitPython: it raises `OSError` — NOT the `GitCommandError` the `except`
catches — when `dev` exists at a different commit, and silently succeeds
when `dev` exists at the current HEAD commit; `checkout`'s
`GitCommandError` IS caught and turns into the early return.  Then the
cleanup (whose YAML parse exception is uncaught) and the Boardless
`stage_and_commit`. -/
def blfMain (s : St) : St × BOut :=
  let sb := blfPrelude s
  match create_head sb "dev" with
  | (_, some _) => (sb, .raised .osError)
  | (sc0, none) =>
    match gitCheckout sc0 "dev" with
    | (sc1, some _) => (sc1, .earlyReturn)
    | (sc1, none) =>
      match cleanup_yaml_and_files sc1.work with
      | (w2, some e) => ({ sc1 with work := w2 }, .raised e)
      | (w2, none) =>
        ((blf_stage_and_commit { sc1 with work := w2 } blSubject).1, .finished)

/-! ### C10 support lemmas -/

theorem blfStage_shape (s : St) :
    ∃ idx, blfStage s = { s with index := idx } := by
  unfold blfStage
  obtain ⟨i1, h1⟩ := addUntracked_shape s
  rw [h1]
  obtain ⟨i3, h3⟩ := foldl_indexAddPath_shape
    ((modifiedFiles { s with index := i1 }).filter
      fun p => !((deletedFiles { s with index := i1 }).contains p))
    { s with index := (deletedFiles { s with index := i1 }).foldl adel i1 }
  exact ⟨i3, h3⟩

theorem blf_sac_shape (s : St) (m : String) :
    ∃ br idx, (blf_stage_and_commit s m).1
      = { s with branches := br, index := idx } := by
  unfold blf_stage_and_commit
  obtain ⟨idx, hst⟩ := blfStage_shape s
  split
  · refine ⟨aset s.branches s.active
      (⟨m, idx⟩ :: (alook s.branches s.active).getD []), idx, ?_⟩
    show indexCommit (blfStage s) m = _
    rw [hst]
    rfl
  · exact ⟨s.branches, idx, by rw [hst]⟩

theorem blf_sac_branches_ne (s : St) (m b : String) (hb : b ≠ s.active) :
    alook ((blf_stage_and_commit s m).1).branches b = alook s.branches b := by
  unfold blf_stage_and_commit
  obtain ⟨idx, hst⟩ := blfStage_shape s
  split
  · show alook (indexCommit (blfStage s) m).branches b = _
    rw [hst]
    show alook (aset s.branches s.active _) b = _
    rw [alook_aset, if_neg fun he => hb he.symm]
  · rw [hst]

theorem lStarts_prefix_append :
    ∀ (pre rest : List Char), lStarts pre (pre ++ rest) = true
  | [], _ => rfl
  | c :: cs, rest => by
    rw [List.cons_append, lStarts, lStarts_prefix_append cs rest]
    simp

theorem sStarts_concat (pre x : String) : sStarts (pre ++ x) pre = true := by
  unfold sStarts
  rw [String.data_append]
  exact lStarts_prefix_append pre.data x.data

theorem alook_copyOne_ne (w : WorkTree) (sd : String × String) (p : String)
    (hp : sd.2 ≠ p) : alook (copyOne w sd) p = alook w p := by
  unfold copyOne
  cases alook w sd.1 with
  | none => rfl
  | some c =>
    show alook (aset w sd.2 c) p = _
    rw [alook_aset, if_neg hp]

theorem copyGithubTree_frame (w : WorkTree) (p : String)
    (hp : sStarts p ".github/" = false) :
    alook (copyGithubTree w) p = alook w p := by
  unfold copyGithubTree
  generalize filesUnder w "si_gh_actions/.github" = l
  induction l generalizing w with
  | nil => rfl
  | cons qc rest ih =>
    rw [List.foldl_cons]
    rw [ih]
    rw [alook_aset, if_neg ?_]
    intro he
    rw [show (".github/" ++ dropPrefixStr "si_gh_actions/.github/" qc.1 : String)
        = ".github/" ++ dropPrefixStr "si_gh_actions/.github/" qc.1 from rfl] at he
    rw [← he] at hp
    rw [sStarts_concat] at hp
    cases hp

theorem blf_copy_frame (w : WorkTree) (p : String)
    (h1 : p ≠ "CHANGELOG.md") (h2 : p ≠ "VERSION.md") (h3 : p ≠ ".gitignore")
    (hg : sStarts p ".github/" = false) :
    alook (blf_copy_files_to_root w) p = alook w p := by
  unfold blf_copy_files_to_root blfCopySources
  rw [copyGithubTree_frame _ _ hg]
  rw [List.foldl_cons, List.foldl_cons, List.foldl_cons, List.foldl_nil]
  rw [alook_copyOne_ne _ _ _ fun he => h3 he.symm]
  rw [alook_copyOne_ne _ _ _ fun he => h2 he.symm]
  rw [alook_copyOne_ne _ _ _ fun he => h1 he.symm]

theorem ends_slcp_ne (p : String) (h : sEnds p ".slcp" = true) :
    p ≠ "CHANGELOG.md" ∧ p ≠ "VERSION.md" ∧ p ≠ ".gitignore" := by
  refine ⟨?_, ?_, ?_⟩ <;>
    exact fun he => absurd (he ▸ h) (by decide)

theorem ends_pintool_ne (p : String) (h : sEnds p ".pintool" = true) :
    p ≠ "CHANGELOG.md" ∧ p ≠ "VERSION.md" ∧ p ≠ ".gitignore" := by
  refine ⟨?_, ?_, ?_⟩ <;>
    exact fun he => absurd (he ▸ h) (by decide)

theorem blfPrelude_work_frame (s : St) (p : String)
    (h1 : p ≠ "CHANGELOG.md") (h2 : p ≠ "VERSION.md") (h3 : p ≠ ".gitignore")
    (hg : sStarts p ".github/" = false) :
    alook (blfPrelude s).work p = alook s.work p := by
  unfold blfPrelude
  obtain ⟨br, idx, hsh⟩ := blf_sac_shape s bfSubject
  show alook (blf_copy_files_to_root ((blf_stage_and_commit s bfSubject).1).work) p
      = alook s.work p
  rw [hsh]
  exact blf_copy_frame _ _ h1 h2 h3 hg

/-! ### C10: theorem, counterexample, witness -/

/-- C10 (amended): when a branch `dev` already exists at the
branch-creation point and its tip differs from the current HEAD commit,
GitPython's `create_head` raises `OSError` — which the `except
GitCommandError` does NOT catch — so `main()` dies before the manifest
cleanup and before any "Initial Boardless commit" attempt: every `.slcp`
and `.pintool` file outside the copied `.github/` tree is unchanged, and
(provided `dev` is not the checked-out branch) `dev`'s history is
unchanged.  When `dev` exists at the current HEAD commit, however,
`create_head` silently succeeds and cleanup and the Boardless commit DO
proceed — see the counterexample. -/
theorem claim_C10_dev_exists (s : St) (h : History)
    (hdev : alook (blfPrelude s).branches "dev" = some h)
    (hne : h.head? ≠ (activeHist (blfPrelude s)).head?) :
    blfMain s = (blfPrelude s, BOut.raised Err.osError) ∧
    (∀ p, sEnds p ".slcp" = true → sStarts p ".github/" = false →
      alook ((blfMain s).1).work p = alook s.work p) ∧
    (∀ p, sEnds p ".pintool" = true → sStarts p ".github/" = false →
      alook ((blfMain s).1).work p = alook s.work p) ∧
    (s.active ≠ "dev" →
      alook ((blfMain s).1).branches "dev" = alook s.branches "dev") := by
  have hmain : blfMain s = (blfPrelude s, BOut.raised Err.osError) := by
    unfold blfMain create_head
    dsimp only
    rw [hdev]
    dsimp only
    rw [if_neg hne]
  refine ⟨hmain, ?_, ?_, ?_⟩
  · intro p hslcp hg
    rw [hmain]
    obtain ⟨hn1, hn2, hn3⟩ := ends_slcp_ne p hslcp
    exact blfPrelude_work_frame s p hn1 hn2 hn3 hg
  · intro p hpin hg
    rw [hmain]
    obtain ⟨hn1, hn2, hn3⟩ := ends_pintool_ne p hpin
    exact blfPrelude_work_frame s p hn1 hn2 hn3 hg
  · intro hactive
    rw [hmain]
    show alook (blfPrelude s).branches "dev" = _
    unfold blfPrelude
    show alook ((blf_stage_and_commit s bfSubject).1).branches "dev" = _
    exact blf_sac_branches_ne s bfSubject "dev" fun he => hactive he.symm

/-- The C10 counterexample repository: `dev` exists, is the checked-out
branch, the tree is clean, and a `.pintool` file is tracked. -/
def cex10St : St :=
  { branches := [("dev", [⟨"init", [(".pintool", ⟨FMode.regular, "pins"⟩)]⟩])]
    active := "dev"
    index := [(".pintool", ⟨FMode.regular, "pins"⟩)]
    work := [(".pintool", "pins")]
    ignored := [] }

/-- C10 counterexample: with `dev` already existing (checked out, at HEAD),
`boardlessify.main` does NOT fail at branch creation: `create_head` silently
succeeds, the cleanup runs and deletes the `.pintool` file, and an "Initial
Boardless commit" is created on `dev` — its history changes. -/
theorem claim_C10_counterexample :
    (blfMain cex10St).2 = BOut.finished ∧
    alook ((blfMain cex10St).1).work ".pintool" = none ∧
    alook ((blfMain cex10St).1).branches "dev"
      ≠ alook cex10St.branches "dev" := by decide

/-- State instantiating the C10 theorem: `dev` exists at a commit different
from `main`'s tip; a manifest and a pintool file are present and tracked. -/
def c10bTree : Tree :=
  [("app.slcp", ⟨FMode.regular, "content"⟩),
   ("b.pintool", ⟨FMode.regular, "pins"⟩)]

def c10bSt : St :=
  { branches := [("main", [⟨"init", c10bTree⟩]), ("dev", [⟨"other", []⟩])]
    active := "main"
    index := c10bTree
    work := [("app.slcp", "content"), ("b.pintool", "pins")]
    ignored := [] }

/-- C10 witness: the theorem applied to `c10bSt`. -/
theorem claim_C10_witness :
    alook ((blfMain c10bSt).1).work "app.slcp" = some "content" := by
  have h := (claim_C10_dev_exists c10bSt [⟨"other", []⟩] (by decide)
    (by decide)).2.1 "app.slcp" (by decide) (by decide)
  rw [h]
  decide

end SiGh
